import Mathlib

/-!
Verification of the dynamic categorization pipeline of
`politics_news_scraper/categorizer.py` (class `DynamicCategorizer`).

The embedding models Python strings as `List Char` / `String`, decoded JSON
values as the inductive `Json` below (numbers restricted to integers, which is
the only numeric shape the pipeline's prompts and fallbacks ever produce), and
the completion endpoint as an oracle `Nat → CallResult` indexed by the call
number, quantified over in every theorem, so that all possible response texts
and transport failures are covered.  Python dynamic errors that the source can
hit mid-loop (`TypeError` on unhashable dict keys, string/list subscripts) are
modelled explicitly, because the source's `except` blocks observe the partial
state they leave behind.
-/

namespace AndrewExchange

/-! ### Python string primitives (over `List Char`) -/

/-- The ASCII whitespace characters `str.strip` removes.  (Python also strips
some rarer Unicode space characters; the pipeline only ever meets ASCII.) -/
def isPyWs (c : Char) : Bool :=
  c = ' ' || c = '\t' || c = '\n' || c = '\r' || c = '\x0b' || c = '\x0c'

/-- Python `str.strip()` on a character list: drop whitespace at both ends. -/
def pyStripL (s : List Char) : List Char :=
  ((s.dropWhile isPyWs).reverse.dropWhile isPyWs).reverse

/-- The worker behind `pySplitL`: scan left to right, and wherever the (nonempty)
separator is a prefix of the remainder, emit the accumulated segment and skip
the separator, exactly like Python's `str.split(sep)`.  The fuel argument
(structural, so the definition computes) is at least the input length at every
call site, which makes its exhaustion case unreachable. -/
def splitGo (sep : List Char) : Nat → List Char → List Char → List (List Char)
  | _, [], cur => [cur.reverse]
  | 0, c :: t, cur => [cur.reverse ++ (c :: t)]
  | fuel + 1, c :: t, cur =>
      if sep ≠ [] ∧ sep.isPrefixOf (c :: t) then
        cur.reverse :: splitGo sep fuel (t.drop (sep.length - 1)) []
      else
        splitGo sep fuel t (c :: cur)

/-- Python `s.split(sep)` for a nonempty separator. -/
def pySplitL (sep s : List Char) : List (List Char) := splitGo sep s.length s []

/-- Does `needle` occur as a contiguous substring of `hay`?  (Python `in`.) -/
def hasSubL (needle hay : List Char) : Bool :=
  (List.range (hay.length + 1)).any (fun i => needle.isPrefixOf (hay.drop i))

/-- Python `c.upper()` per character (ASCII; the pipeline compares to "NONE"). -/
def pyUpperL (s : List Char) : List Char := s.map Char.toUpper

/-- Python `c.lower()` per character (ASCII; the pipeline compares to "true"). -/
def pyLowerL (s : List Char) : List Char := s.map Char.toLower

/-! ### Decoded JSON values

`json.loads`' output, with numbers restricted to integers (floats never arise
from anything this pipeline serializes, and its decode logic treats every
number opaquely).  Objects keep their members in source order; lookups below
use Python's last-binding-wins dict semantics, so an object with duplicate
keys behaves exactly like the collapsed dict `json.loads` would build. -/
inductive Json where
  | null
  | bool (b : Bool)
  | num (n : Int)
  | str (s : String)
  | arr (items : List Json)
  | obj (members : List (String × Json))

namespace Json

mutual

/-- Structural equality test for decoded JSON values. -/
def beqJ : Json → Json → Bool
  | .null, .null => true
  | .bool a, .bool b => a = b
  | .num a, .num b => a = b
  | .str a, .str b => a = b
  | .arr a, .arr b => beqJList a b
  | .obj a, .obj b => beqJMembers a b
  | _, _ => false

def beqJList : List Json → List Json → Bool
  | [], [] => true
  | a :: as0, b :: bs0 => beqJ a b && beqJList as0 bs0
  | _, _ => false

def beqJMembers : List (String × Json) → List (String × Json) → Bool
  | [], [] => true
  | (k, v) :: as0, (k2, v2) :: bs0 => k = k2 && beqJ v v2 && beqJMembers as0 bs0
  | _, _ => false

end

mutual

theorem beqJ_iff : ∀ a b : Json, beqJ a b = true ↔ a = b
  | .null, b => by cases b <;> simp [beqJ]
  | .bool x, b => by cases b <;> simp [beqJ]
  | .num x, b => by cases b <;> simp [beqJ]
  | .str x, b => by cases b <;> simp [beqJ]
  | .arr xs, b => by
      cases b <;> simp only [beqJ, Bool.false_eq_true, false_iff] <;>
        try exact fun h => Json.noConfusion h
      rw [beqJList_iff xs]
      constructor
      · intro h; rw [h]
      · intro h; exact Json.arr.inj h
  | .obj xs, b => by
      cases b <;> simp only [beqJ, Bool.false_eq_true, false_iff] <;>
        try exact fun h => Json.noConfusion h
      rw [beqJMembers_iff xs]
      constructor
      · intro h; rw [h]
      · intro h; exact Json.obj.inj h

theorem beqJList_iff : ∀ a b : List Json, beqJList a b = true ↔ a = b
  | [], b => by cases b <;> simp [beqJList]
  | x :: xs, b => by
      cases b with
      | nil => simp [beqJList]
      | cons y ys =>
          simp only [beqJList, Bool.and_eq_true, beqJ_iff x y, beqJList_iff xs ys,
            List.cons.injEq]

theorem beqJMembers_iff : ∀ a b : List (String × Json), beqJMembers a b = true ↔ a = b
  | [], b => by cases b <;> simp [beqJMembers]
  | (k, v) :: xs, b => by
      cases b with
      | nil => simp [beqJMembers]
      | cons y ys =>
          obtain ⟨k2, v2⟩ := y
          simp only [beqJMembers, Bool.and_eq_true, beqJ_iff v v2, beqJMembers_iff xs ys,
            List.cons.injEq, Prod.mk.injEq, decide_eq_true_eq, and_assoc]

end

instance : DecidableEq Json := fun a b => decidable_of_iff _ (beqJ_iff a b)

/-- Python dict lookup on a decoded object: the last binding for a key wins,
matching how `json.loads` collapses duplicate keys. -/
def objGet? (ms : List (String × Json)) (k : String) : Option Json :=
  match ms with
  | [] => none
  | kv :: rest =>
      match objGet? rest k with
      | some v => some v
      | none => if kv.1 = k then some kv.2 else none

/-- Key membership in a decoded object (`k in d` for a Python dict). -/
def objHasKey (ms : List (String × Json)) (k : String) : Bool :=
  ms.any (fun kv => kv.1 = k)

/-- Python truthiness of a decoded JSON value (`if x:`). -/
def pyTruthy : Json → Bool
  | .null => false
  | .bool b => b
  | .num n => n ≠ 0
  | .str s => s ≠ ""
  | .arr items => !items.isEmpty
  | .obj ms => !ms.isEmpty

/-- Python `x == sentinel` for a decoded value against a string literal: only a
string can compare equal to a string. -/
def eqStr (j : Json) (s : String) : Bool :=
  match j with
  | .str t => t = s
  | _ => false

/-- Is the value usable as a Python dict key (hashable)?  Decoded lists and
dicts are unhashable; using one as a key or in a dict-membership test raises
`TypeError`. -/
def hashable : Json → Bool
  | .arr _ => false
  | .obj _ => false
  | _ => true

end Json

/-! ### `json.loads`, restricted to the integer-numbered fragment

A fuel-indexed recursive-descent parser.  It accepts exactly the documents
`json.loads` accepts on the fragment the pipeline can produce or meaningfully
consume: the integer grammar (a number continued by `.`/`e`/`E` is a float and
is rejected), strict strings (raw control characters refused, the standard
escapes and non-surrogate `\uXXXX` accepted), and arbitrarily nested arrays
and objects with optional interleaved whitespace. -/

def isJsonWs (c : Char) : Bool := c = ' ' || c = '\t' || c = '\n' || c = '\r'

def skipJWs : List Char → List Char
  | c :: t => if isJsonWs c then skipJWs t else c :: t
  | [] => []

def isDigitC (c : Char) : Bool := '0' ≤ c && c ≤ '9'

def hexDigitVal? (c : Char) : Option Nat :=
  let n := c.toNat
  if 48 ≤ n && n < 58 then some (n - 48)
  else if 97 ≤ n && n < 103 then some (n - 87)
  else if 65 ≤ n && n < 71 then some (n - 55)
  else none

def unescapeC : Char → Option Char
  | '"' => some '"'
  | '\\' => some '\\'
  | '/' => some '/'
  | 'b' => some '\x08'
  | 'f' => some '\x0c'
  | 'n' => some '\n'
  | 'r' => some '\r'
  | 't' => some '\t'
  | _ => none

/-- String body after the opening quote.  A lone `\uXXXX` in the surrogate
range is refused (Python would pair or pass it through; the serializer below
never emits one, so the difference is unreachable from this pipeline). -/
def parseStrBody (acc : List Char) : List Char → Option (String × List Char)
  | '"' :: rest => some (⟨acc.reverse⟩, rest)
  | '\\' :: 'u' :: h1 :: h2 :: h3 :: h4 :: rest =>
      match hexDigitVal? h1, hexDigitVal? h2, hexDigitVal? h3, hexDigitVal? h4 with
      | some a, some b, some c, some d =>
          let n := ((a * 16 + b) * 16 + c) * 16 + d
          if 0xd800 ≤ n && n < 0xe000 then none
          else parseStrBody (Char.ofNat n :: acc) rest
      | _, _, _, _ => none
  | '\\' :: e :: rest =>
      match unescapeC e with
      | some c => parseStrBody (c :: acc) rest
      | none => none
  | c :: rest => if c.toNat < 0x20 then none else parseStrBody (c :: acc) rest
  | [] => none

def takeDigitsL : List Char → List Char × List Char
  | c :: t =>
      if isDigitC c then
        let (ds, r) := takeDigitsL t
        (c :: ds, r)
      else ([], c :: t)
  | [] => ([], [])

def digitsVal (ds : List Char) : Nat :=
  ds.foldl (fun a c => a * 10 + (c.toNat - '0'.toNat)) 0

/-- An integer token: optional minus sign and a digit run.  A continuation by
`.`/`e`/`E` means a float literal, outside the integer model, and is refused. -/
def parseIntTok (cs : List Char) : Option (Int × List Char) :=
  let (neg, cs1) := match cs with | '-' :: r0 => (true, r0) | _ => (false, cs)
  match takeDigitsL cs1 with
  | ([], _) => none
  | (d :: ds, rest) =>
      let stop : Bool := match rest with
        | c :: _ => !(c = '.' || c = 'e' || c = 'E')
        | [] => true
      if stop then
        let v : Int := (digitsVal (d :: ds) : Nat)
        some ((if neg then -v else v), rest)
      else none

mutual

def parseVal : Nat → List Char → Option (Json × List Char)
  | 0, _ => none
  | fuel + 1, cs =>
      match skipJWs cs with
      | 'n' :: 'u' :: 'l' :: 'l' :: r => some (.null, r)
      | 't' :: 'r' :: 'u' :: 'e' :: r => some (.bool true, r)
      | 'f' :: 'a' :: 'l' :: 's' :: 'e' :: r => some (.bool false, r)
      | '"' :: r =>
          (match parseStrBody [] r with
           | some (s, r2) => some (.str s, r2)
           | none => none)
      | '[' :: r =>
          (match skipJWs r with
           | ']' :: r2 => some (.arr [], r2)
           | r2 =>
             match parseItems fuel r2 with
             | some (xs, r3) => some (.arr xs, r3)
             | none => none)
      | '{' :: r =>
          (match skipJWs r with
           | '}' :: r2 => some (.obj [], r2)
           | r2 =>
             match parseFields fuel r2 with
             | some (ms, r3) => some (.obj ms, r3)
             | none => none)
      | c :: r =>
          if c = '-' || isDigitC c then
            match parseIntTok (c :: r) with
            | some (n, r2) => some (.num n, r2)
            | none => none
          else none
      | [] => none

def parseItems : Nat → List Char → Option (List Json × List Char)
  | 0, _ => none
  | fuel + 1, cs =>
      match parseVal fuel cs with
      | none => none
      | some (v, r) =>
          match skipJWs r with
          | ',' :: r2 =>
              (match parseItems fuel r2 with
               | some (vs, r3) => some (v :: vs, r3)
               | none => none)
          | ']' :: r2 => some ([v], r2)
          | _ => none

def parseFields : Nat → List Char → Option (List (String × Json) × List Char)
  | 0, _ => none
  | fuel + 1, cs =>
      match skipJWs cs with
      | '"' :: r =>
          (match parseStrBody [] r with
           | none => none
           | some (k, r1) =>
             match skipJWs r1 with
             | ':' :: r2 =>
                 (match parseVal fuel r2 with
                  | none => none
                  | some (v, r3) =>
                    match skipJWs r3 with
                    | ',' :: r4 =>
                        (match parseFields fuel r4 with
                         | some (ms, r5) => some ((k, v) :: ms, r5)
                         | none => none)
                    | '}' :: r4 => some ([(k, v)], r4)
                    | _ => none)
             | _ => none)
      | _ => none

end

/-- A whole document: one value, then only whitespace. -/
def Json.parseL (cs : List Char) : Option Json :=
  match parseVal (cs.length + 1) cs with
  | some (v, r) => if (skipJWs r).isEmpty then some v else none
  | none => none

/-! ### `json.dumps` on the same fragment

Default separators (`", "` and `": "`), standard short escapes plus `\u00xx`
for the remaining control characters, non-ASCII characters kept literal (the
`ensure_ascii=False` convention; the escaping choice is invisible to every
theorem below, which quantify over the decoded value). -/

def hexLowerC (n : Nat) : Char :=
  if n < 10 then Char.ofNat ('0'.toNat + n) else Char.ofNat ('a'.toNat + (n - 10))

def escChar (c : Char) : List Char :=
  if c = '"' then ['\\', '"']
  else if c = '\\' then ['\\', '\\']
  else if c = '\n' then ['\\', 'n']
  else if c = '\t' then ['\\', 't']
  else if c = '\r' then ['\\', 'r']
  else if c = '\x08' then ['\\', 'b']
  else if c = '\x0c' then ['\\', 'f']
  else if c.toNat < 0x20 then
    ['\\', 'u', '0', '0', hexLowerC (c.toNat / 16), hexLowerC (c.toNat % 16)]
  else [c]

def escStrL (s : String) : List Char := s.data.flatMap escChar

/-- Decimal digits of `n`, most significant first, onto `acc`; fuel-indexed so
it computes (`n` itself always bounds the digit count). -/
def natDigitsGo : Nat → Nat → List Char → List Char
  | 0, n, acc => Char.ofNat ('0'.toNat + n % 10) :: acc
  | fuel + 1, n, acc =>
      let acc2 := Char.ofNat ('0'.toNat + n % 10) :: acc
      if n < 10 then acc2 else natDigitsGo fuel (n / 10) acc2

def natChars (n : Nat) : List Char := natDigitsGo n n []

def intCharsL (i : Int) : List Char :=
  (if i < 0 then ['-'] else []) ++ natChars i.natAbs

mutual

def dumpsL : Json → List Char
  | .num n => intCharsL n
  | .str s => '"' :: (escStrL s ++ ['"'])
  | .bool false => ['f', 'a', 'l', 's', 'e']
  | .arr [] => ['[', ']']
  | .null => ['n', 'u', 'l', 'l']
  | .arr (x :: xs) => '[' :: (dumpsL x ++ (dumpsMoreItems xs ++ [']']))
  | .bool true => ['t', 'r', 'u', 'e']
  | .obj [] => ['{', '}']
  | .obj (kv :: ms) => '{' :: (dumpsField kv ++ (dumpsMoreFields ms ++ ['}']))

def dumpsField : String × Json → List Char
  | (k, v) => '"' :: (escStrL k ++ ('"' :: ':' :: ' ' :: dumpsL v))

def dumpsMoreItems : List Json → List Char
  | [] => []
  | x :: xs => ',' :: ' ' :: (dumpsL x ++ dumpsMoreItems xs)

def dumpsMoreFields : List (String × Json) → List Char
  | [] => []
  | kv :: ms => ',' :: ' ' :: (dumpsField kv ++ dumpsMoreFields ms)

end

def Json.dumps (v : Json) : String := ⟨dumpsL v⟩

/-! ### The response normalization shared by every categorizer method

`categorizer.py` repeats this block verbatim before each `json.loads` call:
strip, and when the text opens with a triple-backtick fence take
`split("```")[1]`, drop a leading 4-character `json` tag, strip again. -/

def FENCE : List Char := ['`', '`', '`']

def JSONTAG : List Char := ['j', 's', 'o', 'n']

/-- The fence-stripping normalization.  When the stripped text opens with the
fence, `split("```")` has at least two segments, so the source's `[1]` index is
in range; `getD` records that. -/
def cleanResponseL (raw : List Char) : List Char :=
  let s1 := pyStripL raw
  let s2 :=
    if FENCE.isPrefixOf s1 then
      let seg := (pySplitL FENCE s1).getD 1 []
      if JSONTAG.isPrefixOf seg then seg.drop 4 else seg
    else s1
  pyStripL s2

/-- The response decoder: normalization followed by `json.loads`. -/
def decode_json (raw : String) : Option Json := Json.parseL (cleanResponseL raw.data)

/-! ### Python dicts keyed by strings (insertion-ordered association lists)

Keys are unique in every dict the pipeline builds; the operations below have
CPython's semantics on that assumption: overwriting keeps the original key
position, appending to the list at a key touches exactly that entry. -/

abbrev PyDict (β : Type) : Type := List (String × β)

def dictKeys (d : PyDict β) : List String := d.map (·.1)

def dictHasKey : PyDict β → String → Bool
  | [], _ => false
  | kv :: d, k => kv.1 = k || dictHasKey d k

def dictGet? : PyDict β → String → Option β
  | [], _ => none
  | kv :: d, k => if kv.1 = k then some kv.2 else dictGet? d k

/-- `d[k] = v`: overwrite in place, or append a new binding. -/
def dictSet : PyDict β → String → β → PyDict β
  | [], k, v => [(k, v)]
  | kv :: d, k, v => if kv.1 = k then (k, v) :: d else kv :: dictSet d k v

/-- `d[k].append(a)`: extend the list bound at `k` (the unique matching entry;
every other entry is kept as it is, so key structure is preserved). -/
def dictAppend : PyDict (List α) → String → α → PyDict (List α)
  | [], _, _ => []
  | kv :: d, k, a => (if kv.1 = k then (kv.1, kv.2 ++ [a]) else kv) :: dictAppend d k a

/-! ### The completion endpoint as an oracle

`_call_openrouter` either returns the completion text or raises (re-raised
transport errors, or a malformed `choices` payload).  An `Oracle` fixes the
outcome of the `n`-th completion call of the operation under scrutiny; every
theorem quantifies over it, covering all endpoint behaviors. -/

inductive CallResult where
  | failure
  | success (text : String)
  deriving DecidableEq

def Oracle : Type := Nat → CallResult

/-- The call failed at call level: transport error, or a response whose whole
text does not decode to JSON after fence-stripping. -/
def callLevelFailure (r : CallResult) : Prop :=
  r = .failure ∨ ∃ t, r = .success t ∧ decode_json t = none

/-! ### Python `str()` of a decoded JSON value

`generate_categories` maps `str` over the decoded list.  `str` of a string is
itself; containers print their elements with `repr`, strings single-quoted. -/

def pyReprStr (s : String) : String :=
  let q : Char := if s.data.contains '\'' && !(s.data.contains '"') then '"' else '\''
  let esc := s.data.flatMap (fun c =>
    if c = '\\' then ['\\', '\\']
    else if c = q then ['\\', q]
    else if c = '\n' then ['\\', 'n']
    else if c = '\r' then ['\\', 'r']
    else if c = '\t' then ['\\', 't']
    else if c.toNat < 0x20 || c.toNat = 0x7f then
      ['\\', 'x', hexLowerC (c.toNat / 16), hexLowerC (c.toNat % 16)]
    else [c])
  ⟨q :: (esc ++ [q])⟩

mutual

def pyRepr : Json → String
  | .null => "None"
  | .bool true => "True"
  | .bool false => "False"
  | .num n => toString n
  | .str s => pyReprStr s
  | .arr xs => "[" ++ pyReprItems xs ++ "]"
  | .obj ms => "\x7b" ++ pyReprFields ms ++ "\x7d"

def pyReprItems : List Json → String
  | [] => ""
  | [x] => pyRepr x
  | x :: xs => pyRepr x ++ ", " ++ pyReprItems xs

def pyReprFields : List (String × Json) → String
  | [] => ""
  | [(k, v)] => pyReprStr k ++ ": " ++ pyRepr v
  | (k, v) :: ms => pyReprStr k ++ ": " ++ pyRepr v ++ ", " ++ pyReprFields ms

end

def pyStr : Json → String
  | .str s => s
  | j => pyRepr j

/-! ### `generate_categories` -/

def FALLBACK_CATEGORIES : List String :=
  ["General Politics", "Elections", "Policy", "International Relations", "Domestic Affairs"]

/-- Category generation.  Its `except` clause catches only `json.JSONDecodeError`
and `ValueError`, so the completion call's own failure (a re-raised transport
`Exception` or malformed payload) propagates; a response that does not decode,
or decodes to a non-list, yields the fixed fallback.  The summaries shape only
the prompt, which the oracle already abstracts. -/
def generate_categories (summaries : List String) (resp : CallResult) :
    Except Unit (List String) :=
  match summaries, resp with
  | _, .failure => .error ()
  | _, .success t =>
      match decode_json t with
      | some (.arr xs) => .ok (xs.map pyStr)
      | some _ => .ok FALLBACK_CATEGORIES
      | none => .ok FALLBACK_CATEGORIES

/-! ### `categorize_articles`

Articles are opaque (`α`): the pipeline reads their `title`/`description`
fields only to build prompts, which the oracle abstracts.  The per-article
loop can raise `TypeError` midway (subscripting a decoded list or string with
a string key, or testing an unhashable decoded value against the dict), and
the `except` branch then observes the partially updated state, so the loop is
modelled in an exception monad carrying that state. -/

structure AssignState (α : Type) where
  categorized : PyDict (List α)
  filtered_count : Nat
  deriving DecidableEq

/-- `{category: [] for category in categories}` (duplicates collapse, first
position wins, like a Python dict comprehension). -/
def initCategorized (categories : List String) : PyDict (List α) :=
  categories.foldl (fun d c => dictSet d c []) []

/-- Python `key in j` for a decoded value: key lookup on a dict, `==`-scan on a
list (only a string element can match), substring test on a string; `in` on a
number/bool/null raises `TypeError` (`none`). -/
def pyContains (j : Json) (key : String) : Option Bool :=
  match j with
  | .obj ms => some (Json.objHasKey ms key)
  | .arr xs => some (xs.any (fun x => Json.eqStr x key))
  | .str s => some (hasSubL key.data s.data)
  | _ => none

/-- Python `j[key]` for a string key: dict lookup; on anything else a
`TypeError` (`none`).  Called only after a successful `in` test. -/
def pySubscript (j : Json) (key : String) : Option Json :=
  match j with
  | .obj ms => Json.objGet? ms key
  | _ => none

/-- `categorized[categories[0]].append(article)`: `IndexError` on an empty
category list, observed as the exception path with the state unchanged. -/
def appendFirst (cats : List String) (st : AssignState α) (a : α) :
    Except (AssignState α) (AssignState α) :=
  match cats with
  | [] => .error st
  | c :: _ => .ok { st with categorized := dictAppend st.categorized c a }

/-- One iteration of the assignment loop, for the article at 0-based batch
position `j` (the prompt numbers it `j+1`). -/
def assignOne (cats : List String) (assignments : Json) (j : Nat) (a : α)
    (st : AssignState α) : Except (AssignState α) (AssignState α) :=
  let key := toString (j + 1)
  match pyContains assignments key with
  | none => .error st
  | some false => appendFirst cats st a
  | some true =>
      match pySubscript assignments key with
      | none => .error st
      | some (.str s) =>
          if s = "FILTER_OUT" then .ok { st with filtered_count := st.filtered_count + 1 }
          else if dictHasKey st.categorized s then
            .ok { st with categorized := dictAppend st.categorized s a }
          else appendFirst cats st a
      | some (.arr _) => .error st
      | some (.obj _) => .error st
      | some _ => appendFirst cats st a

def assignLoop (cats : List String) (assignments : Json) :
    List α → Nat → AssignState α → Except (AssignState α) (AssignState α)
  | [], _, st => .ok st
  | a :: rest, j, st =>
      match assignOne cats assignments j a st with
      | .error st2 => .error st2
      | .ok st2 => assignLoop cats assignments rest (j + 1) st2

def appendAllFirst (c : String) (batch : List α) (d : PyDict (List α)) : PyDict (List α) :=
  batch.foldl (fun d2 a => dictAppend d2 c a) d

/-- The `except` branch of the batch loop: re-append the whole batch to the
first category; with no categories the `categories[0]` access raises again,
uncaught this time. -/
def exceptFallback (cats : List String) (batch : List α) (st : AssignState α) :
    Except Unit (AssignState α) :=
  match cats with
  | [] => if batch.isEmpty then .ok st else .error ()
  | c :: _ => .ok { st with categorized := appendAllFirst c batch st.categorized }

/-- One batch of `categorize_articles`: call, decode, per-article loop; every
failure (call-level or mid-loop) funnels into the fallback branch from the
state reached so far. -/
def processBatch (cats : List String) (batch : List α) (st : AssignState α)
    (resp : CallResult) : Except Unit (AssignState α) :=
  match resp with
  | .failure => exceptFallback cats batch st
  | .success t =>
      match decode_json t with
      | none => exceptFallback cats batch st
      | some assignments =>
          match assignLoop cats assignments batch 0 st with
          | .ok st2 => .ok st2
          | .error st2 => exceptFallback cats batch st2

def ASSIGN_BATCH : Nat := 10

/-- The batch loop, fuel-indexed so it computes; every batch consumes at least
one article, so the article count bounds the batch count and the exhaustion
case is unreachable from `categorize_articles`. -/
def categorizeGo (cats : List String) (oracle : Oracle) :
    Nat → List α → Nat → AssignState α → Except Unit (AssignState α)
  | _, [], _, st => .ok st
  | 0, _ :: _, _, st => .ok st
  | fuel + 1, a :: rest, b, st =>
      match processBatch cats ((a :: rest).take ASSIGN_BATCH) st (oracle b) with
      | .error e => .error e
      | .ok st2 => categorizeGo cats oracle fuel (rest.drop (ASSIGN_BATCH - 1)) (b + 1) st2

/-- Batch assignment: articles in batches of 10, one completion call each
(call `b` of the oracle serves batch `b`). -/
def categorize_articles (articles : List α) (categories : List String)
    (oracle : Oracle) : Except Unit (AssignState α) :=
  categorizeGo categories oracle articles.length articles 0 ⟨initCategorized categories, 0⟩

/-! ### `check_category_relevance` (single-category form) -/

def pyStripLower (t : String) : String := ⟨pyLowerL (pyStripL t.data)⟩

/-- Single-category relevance check.  The second component counts completion
calls issued.  An empty article list returns `false` before any call; on a
call failure the category is assumed relevant. -/
def check_category_relevance (category : String) (articles : List α)
    (resp : CallResult) : Bool × Nat :=
  match category, articles.length with
  | _, 0 => (false, 0)
  | _, _ + 1 =>
      match resp with
      | .failure => (true, 1)
      | .success t => (pyStripLower t = "true", 1)

/-! ### `filter_and_validate_categories`, stage by stage (value level) -/

/-- Step 1: drop categories with fewer than 2 articles; the surviving mapping
and the removed names, in input order. -/
def sizeFilterStage (d : PyDict (List α)) : PyDict (List α) × List String :=
  (d.filter (fun kv => kv.2.length ≥ 2),
   (d.filter (fun kv => kv.2.length < 2)).map (·.1))

/-- `_check_batch_category_relevance`: one call for a batch of up to 5
category–articles pairs; the raw decoded list is returned when it is a list of
exactly the batch's length, and `[True] * n` on transport failure, decode
failure, a non-list decode, or a length mismatch.  Only the batch's length
influences the result (the articles shape only the prompt). -/
def relevanceResults (n : Nat) (resp : CallResult) : List Json :=
  match resp with
  | .failure => List.replicate n (.bool true)
  | .success t =>
      match decode_json t with
      | some (.arr rs) => if rs.length = n then rs else List.replicate n (.bool true)
      | _ => List.replicate n (.bool true)

def VALIDATE_BATCH : Nat := 5

/-- Step 2: batches of 5 pairs, one call per batch starting at call index `k`;
Python truthiness of the positionally aligned result decides keep or drop.
Returns (relevant, removed names, next call index).  Polymorphic in the value
type, so the heap model reuses it with references as values. -/
def validateGo (oracle : Oracle) : Nat → PyDict β → Nat → PyDict β × List String × Nat
  | _, [], k => ([], [], k)
  | 0, _ :: _, k => ([], [], k)
  | fuel + 1, kv :: rest, k =>
      let pairs := (kv :: rest).take VALIDATE_BATCH
      let rs := relevanceResults pairs.length (oracle k)
      let kept := ((pairs.zip rs).filter (fun p => Json.pyTruthy p.2)).map (·.1)
      let dropped := ((pairs.zip rs).filter (fun p => !Json.pyTruthy p.2)).map (·.1.1)
      let out := validateGo oracle fuel (rest.drop (VALIDATE_BATCH - 1)) (k + 1)
      (kept ++ out.1, dropped ++ out.2.1, out.2.2)

/-- `None if (isinstance(a, str) and a.upper() == "NONE") else a`. -/
def noneConv (a : Json) : Option Json :=
  match a with
  | .str s => if pyUpperL s.data = "NONE".data then none else some a
  | _ => some a

/-- `_recategorize_batch`: positionally aligned assignments for a batch of
orphans; any failure, a non-list decode, or a length mismatch yields
all-`none` (discard the whole batch). -/
def recategorize_batch (articles : List α) (categories : List String)
    (resp : CallResult) : List (Option Json) :=
  match categories, resp with
  | _, .failure => List.replicate articles.length none
  | _, .success t =>
      match decode_json t with
      | some (.arr rs) =>
          if rs.length = articles.length then rs.map noneConv
          else List.replicate articles.length none
      | _ => List.replicate articles.length none

/-- The non-final recollection application inside
`filter_and_validate_categories`: a truthy assignment naming a surviving
category appends the orphan there; everything else is discarded. -/
def applyRecollect (relevant : PyDict (List α)) (existing : List String)
    (batch : List α) (assigns : List (Option Json)) : PyDict (List α) :=
  (batch.zip assigns).foldl
    (fun d p =>
      match p.2 with
      | some (.str s) =>
          if (!(s == "")) && existing.contains s then dictAppend d s p.1 else d
      | _ => d)
    relevant

/-! ### The renamers -/

/-- Dicts keyed by decoded JSON values (a rename response may map a category
onto a non-string), with CPython insertion semantics.  Structural equality of
keys stands in for Python `==` on decoded values (they differ only on
`True == 1`-style cross-type equalities, which no theorem relies on). -/
def jdictSet : List (Json × β) → Json → β → List (Json × β)
  | [], k, v => [(k, v)]
  | kv :: d, k, v => if kv.1 = k then (k, v) :: d else kv :: jdictSet d k v

def jdictHasKey (d : List (Json × β)) (k : Json) : Bool := d.any (fun kv => kv.1 = k)

def jdictGet? : List (Json × β) → Json → Option β
  | [], _ => none
  | kv :: d, k => if kv.1 = k then some kv.2 else jdictGet? d k

def jdictAppend : List (Json × List α) → Json → α → List (Json × List α)
  | [], _, _ => []
  | kv :: d, k, a => (if kv.1 = k then (kv.1, kv.2 ++ [a]) else kv) :: jdictAppend d k a

/-- A string-keyed dict viewed with its keys injected into `Json` (the shape a
rename path returns when it keeps the input unchanged). -/
def stringKeyed (d : PyDict β) : List (Json × β) := d.map (fun kv => (Json.str kv.1, kv.2))

/-- The rename-construction loop shared verbatim by `_rename_categories_batch`
and `_recategorize_and_rename_combined`: each old name maps through the
decoded rename object, defaulting to itself; inserting an unhashable new name
raises `TypeError` (`none`), absorbed by both call sites.  A collision
overwrites the earlier entry. -/
def buildRenamedGo (ms : List (String × Json)) : PyDict β → List (Json × β) →
    Option (List (Json × β))
  | [], acc => some acc
  | kv :: d, acc =>
      let newName := (Json.objGet? ms kv.1).getD (.str kv.1)
      if newName.hashable then buildRenamedGo ms d (jdictSet acc newName kv.2) else none

def buildRenamed (ms : List (String × Json)) (d : PyDict β) : Option (List (Json × β)) :=
  buildRenamedGo ms d []

/-- The old-name-to-new-name mapping the combined call returns (built in the
same loop as `buildRenamed`; separated here because it never fails once the
rebuild has succeeded). -/
def nameMappingOf (ms : List (String × Json)) (d : PyDict β) : PyDict Json :=
  d.map (fun kv => (kv.1, (Json.objGet? ms kv.1).getD (.str kv.1)))

/-- `_rename_categories_batch`: one call; a decoded object drives the rebuild;
any failure (transport, decode, a non-dict decode raising `AttributeError` on
`.get`, or a `TypeError` during the rebuild) returns the input unchanged. -/
def rename_categories_batch (d : PyDict (List α)) (resp : CallResult) :
    List (Json × List α) :=
  match resp with
  | .failure => stringKeyed d
  | .success t =>
      match decode_json t with
      | some (.obj ms) =>
          match buildRenamed ms d with
          | some r => r
          | none => stringKeyed d
      | _ => stringKeyed d

/-- `_recategorize_and_rename_combined`: one call expected to decode to
`{"recategorizations": [...], "renames": {...}}`.  Any exception — transport,
decode, a non-dict decode, a non-dict `renames` value, or a `TypeError` while
rebuilding — reaches the `except` branch, which issues a *second* completion
call through `_recategorize_batch` and keeps the original names.  A malformed
or wrongly sized `recategorizations` value is no exception: it falls back to
all-`None` and renaming proceeds.  Returns (assignments, renamed mapping,
name mapping, calls consumed). -/
def recategorize_and_rename_combined (articles : List α) (categories : List String)
    (d : PyDict (List α)) (resp fallbackResp : CallResult) :
    List (Option Json) × List (Json × List α) × PyDict Json × Nat :=
  let exceptPath :=
    (recategorize_batch articles categories fallbackResp, stringKeyed d,
     categories.map (fun c => (c, Json.str c)), 2)
  match resp with
  | .failure => exceptPath
  | .success t =>
      match decode_json t with
      | some (.obj result) =>
          match (Json.objGet? result "renames").getD (.obj []) with
          | .obj ms =>
              match buildRenamed ms d with
              | some renamed =>
                  let assigns :=
                    match (Json.objGet? result "recategorizations").getD (.arr []) with
                    | .arr rs =>
                        if rs.length = articles.length then rs.map noneConv
                        else List.replicate articles.length none
                    | _ => List.replicate articles.length none
                  (assigns, renamed, nameMappingOf ms d, 1)
              | none => exceptPath
          | _ => exceptPath
      | _ => exceptPath

/-- The application of the final (combined) recollection batch: assignments
resolve against the pre-rename names, then map through the name mapping into
the renamed dict. -/
def applyCombined (renamed : List (Json × List α)) (nameMapping : PyDict Json)
    (existing : List String) (batch : List α) (assigns : List (Option Json)) :
    List (Json × List α) :=
  (batch.zip assigns).foldl
    (fun r p =>
      match p.2 with
      | some (.str s) =>
          if (!(s == "")) && existing.contains s then
            let newName := (dictGet? nameMapping s).getD (.str s)
            if jdictHasKey r newName then jdictAppend r newName p.1 else r
          else r
      | _ => r)
    renamed

/-! ### `filter_and_validate_categories` over a heap

In CPython the article lists are shared objects: step 1 and step 2 alias them
into the new dicts, and the recollection loop appends through those aliases.
To settle the frame claim the lists live in a store (`Heap`), and mappings
bind category names to references. -/

structure Heap (α : Type) where
  cells : List (List α)
  deriving DecidableEq

def Heap.get (h : Heap α) (r : Nat) : List α := h.cells.getD r []

def Heap.set (h : Heap α) (r : Nat) (v : List α) : Heap α := ⟨h.cells.set r v⟩

/-- `list.append` through a reference. -/
def Heap.push (h : Heap α) (r : Nat) (a : α) : Heap α := h.set r (h.get r ++ [a])

/-- `list.copy()`: a fresh cell holding a snapshot. -/
def Heap.alloc (h : Heap α) (v : List α) : Heap α × Nat := (⟨h.cells ++ [v]⟩, h.cells.length)

abbrev RefMap := PyDict Nat

def RECOLLECT_BATCH : Nat := 5

/-- The non-final recollection application, heap level: appends go through the
references the surviving mapping holds — the same cells the caller's input
mapping references. -/
def applyRecollectH (h : Heap α) (relevant : RefMap) (existing : List String)
    (batch : List α) (assigns : List (Option Json)) : Heap α :=
  (batch.zip assigns).foldl
    (fun h2 p =>
      match p.2 with
      | some (.str s) =>
          if (!(s == "")) && existing.contains s then
            match dictGet? relevant s with
            | some r => h2.push r p.1
            | none => h2
          else h2
      | _ => h2)
    h

/-- The combined call, heap level: the success path copies every surviving
list into a fresh cell (`articles_list.copy()`); the `except` path keeps the
original dict — and its references — unchanged while issuing the fallback
recollection call. -/
def buildRenamedGoH (ms : List (String × Json)) : RefMap → List (Json × Nat) → Heap α →
    Option (List (Json × Nat) × Heap α)
  | [], acc, h => some (acc, h)
  | kv :: d, acc, h =>
      let newName := (Json.objGet? ms kv.1).getD (.str kv.1)
      if newName.hashable then
        let out := h.alloc (h.get kv.2)
        buildRenamedGoH ms d (jdictSet acc newName out.2) out.1
      else none

def buildRenamedH (ms : List (String × Json)) (d : RefMap) (h : Heap α) :
    Option (List (Json × Nat) × Heap α) :=
  buildRenamedGoH ms d [] h

def combinedH (batch : List α) (existing : List String) (relevant : RefMap)
    (h : Heap α) (resp fallbackResp : CallResult) :
    List (Option Json) × List (Json × Nat) × PyDict Json × Heap α × Nat :=
  let exceptPath :=
    (recategorize_batch batch existing fallbackResp, stringKeyed relevant,
     existing.map (fun c => (c, Json.str c)), h, 2)
  match resp with
  | .failure => exceptPath
  | .success t =>
      match decode_json t with
      | some (.obj result) =>
          match (Json.objGet? result "renames").getD (.obj []) with
          | .obj ms =>
              match buildRenamedH ms relevant h with
              | some built =>
                  let assigns :=
                    match (Json.objGet? result "recategorizations").getD (.arr []) with
                    | .arr rs =>
                        if rs.length = batch.length then rs.map noneConv
                        else List.replicate batch.length none
                    | _ => List.replicate batch.length none
                  (assigns, built.1, nameMappingOf ms relevant, built.2, 1)
              | none => exceptPath
          | _ => exceptPath
      | _ => exceptPath

def applyCombinedH (h : Heap α) (renamed : List (Json × Nat)) (nameMapping : PyDict Json)
    (existing : List String) (batch : List α) (assigns : List (Option Json)) : Heap α :=
  (batch.zip assigns).foldl
    (fun h2 p =>
      match p.2 with
      | some (.str s) =>
          if (!(s == "")) && existing.contains s then
            let newName := (dictGet? nameMapping s).getD (.str s)
            match jdictGet? renamed newName with
            | some r => h2.push r p.1
            | none => h2
          else h2
      | _ => h2)
    h

/-- The recollection loop: batches of 5 orphans; the final batch runs the
combined recollect-and-rename call and replaces the surviving mapping with the
renamed one. -/
def recollectGoH (oracle : Oracle) (existing : List String) (total : Nat) :
    Nat → List α → Nat → Nat → RefMap → Heap α → List (Json × Nat) × Heap α × Nat
  | _, [], _, k, relevant, h => (stringKeyed relevant, h, k)
  | 0, _ :: _, _, k, relevant, h => (stringKeyed relevant, h, k)
  | fuel + 1, a :: rest, b, k, relevant, h =>
      let batch := (a :: rest).take RECOLLECT_BATCH
      let rest2 := rest.drop (RECOLLECT_BATCH - 1)
      if b + 1 = total then
        let out := combinedH batch existing relevant h (oracle k) (oracle (k + 1))
        let h3 := applyCombinedH out.2.2.2.1 out.2.1 out.2.2.1 existing batch out.1
        (out.2.1, h3, k + out.2.2.2.2)
      else
        let assigns := recategorize_batch batch existing (oracle k)
        let h2 := applyRecollectH h relevant existing batch assigns
        recollectGoH oracle existing total fuel rest2 (b + 1) (k + 1) relevant h2

/-- `_rename_categories_batch` at the heap level: no list is copied or
appended to, only the dict is rebuilt (aliasing the same references). -/
def renameOnlyH (relevant : RefMap) (resp : CallResult) : List (Json × Nat) :=
  match resp with
  | .failure => stringKeyed relevant
  | .success t =>
      match decode_json t with
      | some (.obj ms) =>
          match buildRenamed ms relevant with
          | some r => r
          | none => stringKeyed relevant
      | _ => stringKeyed relevant

/-- `filter_and_validate_categories`, heap level, threading the completion
call counter (validation batches first, then recollection, the combined call
last — plus its possible nested fallback call). -/
def filter_and_validate_H (d : RefMap) (h : Heap α) (oracle : Oracle) :
    List (Json × Nat) × Heap α :=
  let valid := d.filter (fun kv => (h.get kv.2).length ≥ 2)
  let removed_small := (d.filter (fun kv => (h.get kv.2).length < 2)).map (·.1)
  let validated := validateGo oracle valid.length valid 0
  let relevant := validated.1
  let k1 := validated.2.2
  let removed_articles := (removed_small ++ validated.2.1).flatMap
      (fun c => match dictGet? d c with | some r => h.get r | none => [])
  if (!removed_articles.isEmpty) && (!relevant.isEmpty) then
    let existing := dictKeys relevant
    let total := (removed_articles.length + RECOLLECT_BATCH - 1) / RECOLLECT_BATCH
    let out := recollectGoH oracle existing total removed_articles.length
        removed_articles 0 k1 relevant h
    (out.1, out.2.1)
  else if !relevant.isEmpty then
    (renameOnlyH relevant (oracle k1), h)
  else
    ([], h)

/-! ### The per-position disposition of batch assignment (specification side)

Position `p` of the article list belongs to batch `p / 10` and is numbered
`p % 10 + 1` in that batch's prompt.  `dispOf` states the source's policy for
responses that cannot raise mid-loop; the accounting theorems prove the
implementation realizes it. -/

inductive Disp where
  | filtered
  | toCat (c : String)
  deriving DecidableEq

/-- The decoded assignment value at global position `p`: the value its batch's
response (when it decodes to an object) binds to the 1-based position key. -/
def assignmentAt (oracle : Oracle) (p : Nat) : Option Json :=
  match oracle (p / ASSIGN_BATCH) with
  | .failure => none
  | .success t =>
      match decode_json t with
      | some (.obj ms) => Json.objGet? ms (toString (p % ASSIGN_BATCH + 1))
      | _ => none

/-- The assignment policy per position: `FILTER_OUT` tallies; a string naming
a known category lands there; an absent key, an unknown or non-string value,
or a batch-level failure falls back to the first category. -/
def dispOf (cats : List String) (oracle : Oracle) (p : Nat) : Disp :=
  match assignmentAt oracle p with
  | some (.str s) =>
      if s = "FILTER_OUT" then .filtered
      else if cats.contains s then .toCat s
      else .toCat (cats.headD "")
  | some _ => .toCat (cats.headD "")
  | none => .toCat (cats.headD "")

/-- A batch response that cannot raise `TypeError` mid-loop: either the call
fails at call level (the whole batch falls back before any append), or the
response decodes to an object none of whose values is a container (decoded
lists and dicts are unhashable and raise inside the membership test). -/
def GoodResp (r : CallResult) : Prop :=
  callLevelFailure r ∨
  ∃ t ms, r = .success t ∧ decode_json t = some (.obj ms) ∧
    ∀ kv ∈ ms, Json.hashable kv.2 = true

/-- The state transformer the disposition policy induces: fold the indexed
articles, tallying filtered positions and appending the rest to their target
category.  The accounting theorems prove `categorize_articles` equals this
fold of `dispOf` under `GoodResp` oracles. -/
def specApply (cats : List String) (oracle : Oracle) (ps : List (Nat × α))
    (st : AssignState α) : AssignState α :=
  ps.foldl
    (fun st2 pa =>
      match dispOf cats oracle pa.1 with
      | .filtered => { st2 with filtered_count := st2.filtered_count + 1 }
      | .toCat cat => { st2 with categorized := dictAppend st2.categorized cat pa.2 })
    st

/-- The articles whose position the policy sends to category `s`, in order. -/
def selectedArticles (cats : List String) (oracle : Oracle) (articles : List α)
    (s : String) : List α :=
  ((articles.enum).filter (fun pa => dispOf cats oracle pa.1 = Disp.toCat s)).map (·.2)

/-! ### Accounting helpers -/

/-- All articles a mapping holds, in category order. -/
def joinVals (d : List (σ × List α)) : List α := d.flatMap (·.2)

def totalLen (d : List (σ × List α)) : Nat := (joinVals d).length

/-- Step 3 of `filter_and_validate_categories`: the orphan pool collects every
removed category's articles from the original mapping
(`categorized_articles.get(category, [])`). -/
def removedArticlesOf (d : PyDict (List α)) (removed : List String) : List α :=
  removed.flatMap (fun c => (dictGet? d c).getD [])

/-- The acceptance test of the recollection fold: a non-empty string
assignment naming a surviving category (the article is appended there);
everything else is discarded. -/
def recollectAccepted (existing : List String) (p : α × Option Json) : Bool :=
  match p.2 with
  | some (.str s) => (!(s == "")) && existing.contains s
  | _ => false

/-- The continuation after a serialized number token never extends the token:
it is empty or starts with a character that is neither a digit nor `.`/`e`/`E`.
Every continuation the serializer produces (`,`, `]`, `\x7d`, end of input)
satisfies this. -/
def numDelim : List Char → Bool
  | [] => true
  | c :: _ => !(isDigitC c || c = '.' || c = 'e' || c = 'E')

/-- `json.dumps(v)` wrapped in a fenced block with a `json` tag — the input
shape the decode round-trip property quantifies over. -/
def wrapFenced (s : String) : String := "```json\n" ++ s ++ "\n```"

/-! ### Concrete scenarios used by counterexamples and witnesses -/

/-- An assignment response whose value for position 2 is a decoded list:
position 1 is appended to "B", then the unhashable value raises `TypeError`
mid-loop and the `except` branch re-appends the whole batch to "A". -/
def oracleDupAppend : Oracle :=
  fun _ => .success "\x7b\"1\": \"B\", \"2\": []\x7d"

/-- A rename response mapping two distinct categories onto the same name. -/
def respRenameCollision : CallResult :=
  .success "\x7b\"A\": \"C\", \"B\": \"C\"\x7d"

/-- A rename response naming one category identically and omitting the rest. -/
def respRenameIdentity : CallResult := .success "\x7b\"A\": \"A\"\x7d"

/-- A well-shaped assignment response used by witnesses. -/
def oracleAssignWitness : Oracle :=
  fun _ => .success "\x7b\"1\": \"B\", \"2\": \"FILTER_OUT\", \"3\": \"Nope\"\x7d"

/-- The validation / recollection / combined-call responses of the mutation
scenario: one surviving category "A" (2 articles) and six orphans, so the
recollection runs in two batches; the first batch assigns its five orphans to
"A" through the aliased list, the final combined batch discards its orphan and
renames "A" to itself. -/
def oracleMutation : Oracle := fun k =>
  if k = 0 then .success "[true]"
  else if k = 1 then .success "[\"A\", \"A\", \"A\", \"A\", \"A\"]"
  else if k = 2 then
    .success "\x7b\"recategorizations\": [\"NONE\"], \"renames\": \x7b\"A\": \"A\"\x7d\x7d"
  else .failure

def mutationHeap : Heap Nat := ⟨[[1, 2], [3], [4], [5], [6], [7], [8]]⟩

def mutationMap : RefMap :=
  [("A", 0), ("B", 1), ("C", 2), ("D", 3), ("E", 4), ("F", 5), ("G", 6)]

/-! ## Theorems -/

/-- C9: the single-category relevance check with an empty article list returns
`false` and issues no completion call, whatever the category and however the
oracle would have answered. -/
theorem check_category_relevance_empty (α : Type) (category : String) (resp : CallResult) :
    check_category_relevance category ([] : List α) resp = (false, 0) := rfl

/-- C4 counterexample: a transport failure of the completion call is not
caught by `generate_categories` (its `except` clause lists only
`json.JSONDecodeError` and `ValueError`), so the call raises instead of
returning the fallback list. -/
theorem generate_categories_transport_raises :
    generate_categories ["s"] .failure = .error () ∧
    generate_categories ["s"] .failure ≠ .ok FALLBACK_CATEGORIES := by
  refine ⟨rfl, fun h => ?_⟩
  rw [(rfl : generate_categories ["s"] CallResult.failure = .error ())] at h
  exact Except.noConfusion h

/-- C4 (amended): on every response-decoding failure — text that is not JSON
after fence-stripping, or a decoded value that is not a list —
`generate_categories` returns normally with exactly the 5-element fallback
list; transport failures, by contrast, propagate. -/
theorem generate_categories_decode_fallback (summaries : List String) (t : String)
    (h : decode_json t = none ∨ ∃ j, decode_json t = some j ∧ ∀ xs, j ≠ Json.arr xs) :
    generate_categories summaries (.success t) = .ok FALLBACK_CATEGORIES ∧
    FALLBACK_CATEGORIES.length = 5 ∧
    FALLBACK_CATEGORIES =
      ["General Politics", "Elections", "Policy", "International Relations",
       "Domestic Affairs"] := by
  refine ⟨?_, rfl, rfl⟩
  show (match decode_json t with
        | some (.arr xs) => Except.ok (xs.map pyStr)
        | some _ => Except.ok FALLBACK_CATEGORIES
        | none => Except.ok FALLBACK_CATEGORIES) = Except.ok FALLBACK_CATEGORIES
  rcases h with h | ⟨j, hj, hne⟩
  · rw [h]
  · rw [hj]
    cases j with
    | arr xs => exact absurd rfl (hne xs)
    | null => rfl
    | bool b => rfl
    | num n => rfl
    | str s => rfl
    | obj ms => rfl

/-- Witness for C4's amended theorem at a concrete non-JSON response. -/
theorem generate_categories_decode_fallback_witness :
    generate_categories ["x"] (.success "not json") = .ok FALLBACK_CATEGORIES ∧
    FALLBACK_CATEGORIES.length = 5 ∧
    FALLBACK_CATEGORIES =
      ["General Politics", "Elections", "Policy", "International Relations",
       "Domestic Affairs"] :=
  generate_categories_decode_fallback ["x"] "not json" (Or.inl rfl)

/-- C6: when a batch's completion call fails at call level (transport error,
or the whole response failing to decode), `processBatch` — the per-batch step
`categorize_articles` folds — appends every article of the batch to the first
category and leaves the filtered-out count exactly as it was. -/
theorem processBatch_call_failure (α : Type) (c : String) (cs : List String)
    (batch : List α) (st : AssignState α) (resp : CallResult)
    (h : callLevelFailure resp) :
    processBatch (c :: cs) batch st resp =
      .ok { st with categorized := appendAllFirst c batch st.categorized } := by
  rcases h with rfl | ⟨t, rfl, ht⟩
  · rfl
  · show (match decode_json t with
          | none => exceptFallback (c :: cs) batch st
          | some assignments =>
              match assignLoop (c :: cs) assignments batch 0 st with
              | .ok st2 => Except.ok st2
              | .error st2 => exceptFallback (c :: cs) batch st2) = _
    rw [ht]
    rfl

/-- Witness for C6 at a concrete failing batch. -/
theorem processBatch_call_failure_witness :
    processBatch ["A", "B"] [7, 8] (⟨initCategorized ["A", "B"], 3⟩ : AssignState Nat)
        .failure =
      .ok ⟨[("A", [7, 8]), ("B", [])], 3⟩ := by
  have h := processBatch_call_failure Nat "A" ["B"] [7, 8]
    ⟨initCategorized ["A", "B"], 3⟩ .failure (Or.inl rfl)
  rw [h]
  rfl

/-- C7: `_recategorize_batch` returns a list positionally aligned with its
input batch; on a well-shaped response it is the decoded list with every
case-insensitive `NONE` string mapped to `none`; on a call-level failure, or
a decoded list of the wrong length, it is `none` at every position. -/
theorem recategorize_batch_spec (α : Type) (articles : List α)
    (categories : List String) (resp : CallResult) :
    (recategorize_batch articles categories resp).length = articles.length
    ∧ (∀ t rs, resp = .success t → decode_json t = some (.arr rs) →
        rs.length = articles.length →
        recategorize_batch articles categories resp = rs.map noneConv)
    ∧ (∀ a : Json, noneConv a = none ↔ ∃ s, a = .str s ∧ pyUpperL s.data = "NONE".data)
    ∧ (callLevelFailure resp →
        recategorize_batch articles categories resp = List.replicate articles.length none)
    ∧ (∀ t rs, resp = .success t → decode_json t = some (.arr rs) →
        rs.length ≠ articles.length →
        recategorize_batch articles categories resp = List.replicate articles.length none) := by
  have hnc : ∀ a : Json, noneConv a = none ↔ ∃ s, a = .str s ∧ pyUpperL s.data = "NONE".data := by
    intro a
    cases a with
    | str s =>
        simp only [noneConv]
        by_cases h : pyUpperL s.data = "NONE".data
        · simp [h]
        · simp [h]
    | null => simp [noneConv]
    | bool b => simp [noneConv]
    | num n => simp [noneConv]
    | arr xs => simp [noneConv]
    | obj ms => simp [noneConv]
  have hshape : ∀ t, recategorize_batch articles categories (.success t) =
      (match decode_json t with
       | some (.arr rs) =>
           if rs.length = articles.length then rs.map noneConv
           else List.replicate articles.length none
       | _ => List.replicate articles.length none) := fun t => rfl
  refine ⟨?_, ?_, hnc, ?_, ?_⟩
  · cases resp with
    | failure => simp [recategorize_batch]
    | success t =>
        rw [hshape]
        cases hd : decode_json t with
        | none => simp
        | some j =>
            cases j with
            | arr rs =>
                by_cases hl : rs.length = articles.length
                · simp [hl]
                · simp [hl]
            | null => simp
            | bool b => simp
            | num n => simp
            | str s => simp
            | obj ms => simp
  · rintro t rs rfl hdec hlen
    rw [hshape, hdec]
    show (if rs.length = articles.length then rs.map noneConv
          else List.replicate articles.length none) = rs.map noneConv
    rw [if_pos hlen]
  · rintro (rfl | ⟨t, rfl, ht⟩)
    · rfl
    · rw [hshape, ht]
  · rintro t rs rfl hdec hlen
    rw [hshape, hdec]
    show (if rs.length = articles.length then rs.map noneConv
          else List.replicate articles.length none) = List.replicate articles.length none
    rw [if_neg hlen]

/-- Witness for C7: a concrete success with a `nOnE` entry, and a concrete
length mismatch. -/
theorem recategorize_batch_spec_witness :
    recategorize_batch ([0, 1] : List Nat) ["A"] (.success "[\"x\", \"nOnE\"]") =
      [some (Json.str "x"), none]
    ∧ recategorize_batch ([0, 1] : List Nat) ["A"] (.success "[\"x\"]") = [none, none] := by
  constructor
  · have h := (recategorize_batch_spec Nat [0, 1] ["A"]
      (.success "[\"x\", \"nOnE\"]")).2.1 "[\"x\", \"nOnE\"]"
      [Json.str "x", Json.str "nOnE"] rfl (by rfl) (by rfl)
    rw [h]
    rfl
  · have h := (recategorize_batch_spec Nat [0, 1] ["A"]
      (.success "[\"x\"]")).2.2.2.2 "[\"x\"]" [Json.str "x"] rfl (by rfl) (by decide)
    rw [h]
    rfl

/-- C5 counterexample: the round-trip fails on the JSON string consisting of a
triple backtick — its serialization re-introduces the fence marker, the
`split`-based normalization truncates at it, and decoding yields an error
rather than the original value. -/
theorem decode_wrap_dumps_fence_clash :
    decode_json (wrapFenced (Json.dumps (Json.str "```"))) = none := rfl

/-- C1 counterexample: with categories `["A", "B"]` and a response assigning
article 1 to "B" and binding position 2 to a decoded *list*, the membership
test `category in categorized` raises `TypeError` mid-loop and the `except`
branch re-appends the whole batch to "A" — article 1 ends up in *two*
category lists while the filtered-out tally stays 0. -/
theorem categorize_articles_duplicate_appearance :
    categorize_articles [0, 1] ["A", "B"] oracleDupAppend =
      .ok ⟨[("A", [0, 1]), ("B", [0])], 0⟩
    ∧ ([("A", [0, 1]), ("B", [0])] : PyDict (List Nat)).countP (fun kv => 0 ∈ kv.2) = 2 := by
  exact ⟨rfl, by decide⟩

/-- C2 counterexample: a rename response mapping "A" and "B" to the same new
name makes the dict assignment overwrite the first entry — the articles of
"A" vanish from the output with no removal count anywhere. -/
theorem rename_collision_loses_articles :
    rename_categories_batch [("A", [1, 2]), ("B", [3, 4])] respRenameCollision =
      [(Json.str "C", [3, 4])]
    ∧ joinVals (rename_categories_batch [("A", [1, 2]), ("B", [3, 4])]
        respRenameCollision) = [3, 4] := by
  exact ⟨rfl, rfl⟩

/-- C3: evaluating the heap model of `filter_and_validate_categories` at a
mapping with one surviving category and six orphans (two recollection
batches): the first, non-final batch appends through the aliased list object,
so after the call the *input* mapping's list for "A" has grown from `[1, 2]`
to `[1, 2, 3, 4, 5, 6, 7]` — the stage mutated its input in place. -/
theorem filter_and_validate_mutates_input :
    (filter_and_validate_H mutationMap mutationHeap oracleMutation).2.get 0 =
      [1, 2, 3, 4, 5, 6, 7]
    ∧ mutationHeap.get 0 = [1, 2]
    ∧ (filter_and_validate_H mutationMap mutationHeap oracleMutation).2.get 0 ≠
        mutationHeap.get 0 := by
  refine ⟨rfl, rfl, ?_⟩
  intro h
  rw [(rfl : (filter_and_validate_H mutationMap mutationHeap oracleMutation).2.get 0 =
      [1, 2, 3, 4, 5, 6, 7])] at h
  rw [(rfl : mutationHeap.get 0 = [1, 2])] at h
  exact absurd h (by decide)

/-! ### C8: the renamer's identity behavior -/

theorem jdictSet_fresh (acc : List (Json × β)) (k : Json) (v : β)
    (h : ∀ e ∈ acc, e.1 ≠ k) : jdictSet acc k v = acc ++ [(k, v)] := by
  induction acc with
  | nil => rfl
  | cons e acc ih =>
      simp only [jdictSet]
      rw [if_neg (by simpa using h e (by simp))]
      rw [ih (fun e2 he2 => h e2 (by simp [he2]))]
      simp

/-- The rebuild loop on an identity-or-absent rename response appends each
binding untouched: the result is the accumulator followed by the input with
its keys injected. -/
theorem buildRenamedGo_identity (ms : List (String × Json)) :
    ∀ (d : PyDict β) (acc : List (Json × β)),
      (∀ k ∈ dictKeys d, Json.objGet? ms k = none ∨ Json.objGet? ms k = some (.str k)) →
      (∀ kv ∈ d, ∀ e ∈ acc, e.1 ≠ Json.str kv.1) →
      (dictKeys d).Nodup →
      buildRenamedGo ms d acc = some (acc ++ stringKeyed d)
  | [], acc, _, _, _ => by simp [buildRenamedGo, stringKeyed]
  | kv :: d, acc, h1, h2, h3 => by
      have hname : (Json.objGet? ms kv.1).getD (.str kv.1) = .str kv.1 := by
        rcases h1 kv.1 (by simp [dictKeys]) with h | h <;> simp [h]
      have hkeys : kv.1 ∉ dictKeys d ∧ (dictKeys d).Nodup := by
        simpa [dictKeys] using h3
      simp only [buildRenamedGo, hname]
      rw [if_pos (show (Json.str kv.1).hashable = true from rfl)]
      rw [jdictSet_fresh acc (.str kv.1) kv.2 (h2 kv (by simp))]
      rw [buildRenamedGo_identity ms d (acc ++ [(Json.str kv.1, kv.2)])
        (fun k hk => h1 k (by simp [dictKeys] at hk ⊢; exact Or.inr hk))
        (fun kv2 hkv2 e he => by
          rcases List.mem_append.mp he with he | he
          · exact h2 kv2 (by simp [hkv2]) e he
          · rcases List.mem_singleton.mp he with rfl
            intro hcontra
            have : kv.1 = kv2.1 := Json.str.inj hcontra
            exact hkeys.1 (this ▸ List.mem_map_of_mem _ hkv2)
          )
        hkeys.2]
      simp [stringKeyed]

/-- C8 (confirmed): if the rename response decodes to a mapping that is the
identity on every present key (absent keys defaulting to identity), or the
call fails entirely, `_rename_categories_batch` returns the input mapping
unchanged — same keys, same order, identical article lists. -/
theorem rename_categories_batch_identity (α : Type) (d : PyDict (List α))
    (resp : CallResult) (hnd : (dictKeys d).Nodup)
    (h : resp = .failure ∨ ∃ t ms, resp = .success t ∧ decode_json t = some (.obj ms) ∧
        ∀ k ∈ dictKeys d, Json.objGet? ms k = none ∨ Json.objGet? ms k = some (.str k)) :
    rename_categories_batch d resp = stringKeyed d := by
  rcases h with rfl | ⟨t, ms, rfl, ht, hid⟩
  · rfl
  · show (match decode_json t with
          | some (.obj ms) =>
              (match buildRenamed ms d with
               | some r => r
               | none => stringKeyed d)
          | _ => stringKeyed d) = stringKeyed d
    rw [ht]
    show (match buildRenamed ms d with
          | some r => r
          | none => stringKeyed d) = stringKeyed d
    rw [show buildRenamed ms d = some (stringKeyed d) from by
      rw [buildRenamed, buildRenamedGo_identity ms d [] hid (by simp) hnd]
      simp]

/-- Witness for C8 at a concrete two-category mapping, the response renaming
"A" to itself and omitting "B". -/
theorem rename_categories_batch_identity_witness :
    rename_categories_batch [("A", [1, 2]), ("B", [3, 4])] respRenameIdentity =
      stringKeyed [("A", [1, 2]), ("B", [3, 4])] :=
  rename_categories_batch_identity Nat [("A", [1, 2]), ("B", [3, 4])]
    respRenameIdentity (by decide)
    (Or.inr ⟨"\x7b\"A\": \"A\"\x7d", [("A", Json.str "A")], rfl, by rfl, by decide⟩)

/-! ### C10: totality of batch assignment -/

/-- With a nonempty category list, a batch can never raise: the `except`
branch's `categories[0]` access always succeeds. -/
theorem processBatch_ok (c : String) (cs : List String) (batch : List α)
    (st : AssignState α) (resp : CallResult) :
    ∃ st2, processBatch (c :: cs) batch st resp = .ok st2 := by
  cases resp with
  | failure => exact ⟨_, rfl⟩
  | success t =>
      show ∃ st2, (match decode_json t with
          | none => exceptFallback (c :: cs) batch st
          | some assignments =>
              match assignLoop (c :: cs) assignments batch 0 st with
              | .ok st2 => Except.ok st2
              | .error st2 => exceptFallback (c :: cs) batch st2) = .ok st2
      cases decode_json t with
      | none => exact ⟨_, rfl⟩
      | some assignments =>
          show ∃ st2, (match assignLoop (c :: cs) assignments batch 0 st with
              | .ok st2 => Except.ok st2
              | .error st2 => exceptFallback (c :: cs) batch st2) = .ok st2
          cases assignLoop (c :: cs) assignments batch 0 st with
          | ok st2 => exact ⟨st2, rfl⟩
          | error st2 => exact ⟨_, rfl⟩

theorem categorizeGo_ok (c : String) (cs : List String) (oracle : Oracle) :
    ∀ (fuel : Nat) (articles : List α) (b : Nat) (st : AssignState α),
      ∃ st2, categorizeGo (c :: cs) oracle fuel articles b st = .ok st2
  | fuel, [], _, st => ⟨st, by cases fuel <;> rfl⟩
  | 0, _ :: _, _, st => ⟨st, rfl⟩
  | fuel + 1, a :: rest, b, st => by
      obtain ⟨st2, h2⟩ :=
        processBatch_ok c cs ((a :: rest).take ASSIGN_BATCH) st (oracle b)
      show (∃ st3,
        (match processBatch (c :: cs) ((a :: rest).take ASSIGN_BATCH) st (oracle b) with
         | .error e => Except.error e
         | .ok st2 => categorizeGo (c :: cs) oracle fuel (rest.drop (ASSIGN_BATCH - 1))
             (b + 1) st2) = .ok st3)
      rw [h2]
      exact categorizeGo_ok c cs oracle fuel (rest.drop (ASSIGN_BATCH - 1)) (b + 1) st2

/-- C10: with a nonempty category list, `categorize_articles` returns normally
for every article list and every oracle behavior — every transport and parse
failure is absorbed; with an empty category list and any nonempty article
list, the all-failure oracle makes it raise (the `except` branch's
`categories[0]` access). -/
theorem categorize_articles_safety (α : Type) :
    (∀ (articles : List α) (c : String) (cs : List String) (oracle : Oracle),
        ∃ st, categorize_articles articles (c :: cs) oracle = .ok st)
    ∧ (∀ (a : α) (rest : List α),
        categorize_articles (a :: rest) [] (fun _ => CallResult.failure) = .error ()) := by
  constructor
  · intro articles c cs oracle
    exact categorizeGo_ok c cs oracle articles.length articles 0 _
  · intro a rest
    rfl

/-! ### Dictionary lemmas -/

theorem dictGet?_dictSet (d : PyDict β) (k : String) (v : β) (s : String) :
    dictGet? (dictSet d k v) s = if s = k then some v else dictGet? d s := by
  induction d with
  | nil =>
      by_cases h : s = k
      · subst h; simp [dictSet, dictGet?]
      · simp [dictSet, dictGet?, h, show ¬k = s from fun hh => h hh.symm]
  | cons kv d ih =>
      obtain ⟨k0, v0⟩ := kv
      by_cases hk : k0 = k
      · subst hk
        by_cases hs : s = k0
        · subst hs; simp [dictSet, dictGet?]
        · simp [dictSet, dictGet?, hs, show ¬k0 = s from fun hh => hs hh.symm]
      · by_cases hs : k0 = s
        · subst hs
          simp [dictSet, dictGet?, hk, show ¬k0 = k from hk]
        · simp [dictSet, dictGet?, hk, hs, ih]

theorem dictGet?_dictAppend (d : PyDict (List α)) (k : String) (a : α) (s : String) :
    dictGet? (dictAppend d k a) s =
      if s = k then (dictGet? d s).map (· ++ [a]) else dictGet? d s := by
  induction d with
  | nil => by_cases h : s = k <;> simp [dictAppend, dictGet?, h]
  | cons kv d ih =>
      obtain ⟨k0, v0⟩ := kv
      by_cases hk : k0 = k
      · subst hk
        by_cases hs : s = k0
        · subst hs; simp [dictAppend, dictGet?]
        · simp [dictAppend, dictGet?, hs, show ¬k0 = s from fun hh => hs hh.symm, ih]
      · by_cases hs : k0 = s
        · subst hs
          simp [dictAppend, dictGet?, hk, show ¬k0 = k from hk]
        · simp [dictAppend, dictGet?, hk, hs, ih]

theorem dictKeys_dictAppend (d : PyDict (List α)) (k : String) (a : α) :
    dictKeys (dictAppend d k a) = dictKeys d := by
  induction d with
  | nil => rfl
  | cons kv d ih =>
      by_cases h : kv.1 = k <;> simp [dictAppend, dictKeys, h] <;>
        simpa [dictKeys] using ih

theorem dictGet?_isSome_of_mem (d : PyDict β) (kv : String × β) (hmem : kv ∈ d) :
    (dictGet? d kv.1).isSome = true := by
  induction d with
  | nil => cases hmem
  | cons kv0 d ih =>
      by_cases h : kv0.1 = kv.1
      · simp [dictGet?, h]
      · rcases List.mem_cons.mp hmem with rfl | hm
        · exact absurd rfl h
        · simp [dictGet?, h, ih hm]

theorem dictHasKey_eq_isSome (d : PyDict β) (s : String) :
    dictHasKey d s = (dictGet? d s).isSome := by
  induction d with
  | nil => rfl
  | cons kv d ih =>
      by_cases h : kv.1 = s <;> simp [dictHasKey, dictGet?, h, ih]

theorem dictHasKey_dictAppend (d : PyDict (List α)) (k : String) (a : α) (s : String) :
    dictHasKey (dictAppend d k a) s = dictHasKey d s := by
  rw [dictHasKey_eq_isSome, dictHasKey_eq_isSome, dictGet?_dictAppend]
  by_cases h : s = k <;> simp [h]

/-- In a dict with distinct keys every binding is retrievable. -/
theorem dictGet?_of_mem (d : PyDict β) (kv : String × β)
    (hmem : kv ∈ d) (hnd : (dictKeys d).Nodup) : dictGet? d kv.1 = some kv.2 := by
  induction d with
  | nil => cases hmem
  | cons kv0 d ih =>
      have hnd2 : kv0.1 ∉ dictKeys d ∧ (dictKeys d).Nodup := by simpa [dictKeys] using hnd
      rcases List.mem_cons.mp hmem with rfl | hmem2
      · simp [dictGet?]
      · have hne : ¬kv0.1 = kv.1 := by
          intro h
          exact hnd2.1 (h ▸ List.mem_map_of_mem (·.1) hmem2)
        simp [dictGet?, hne, ih hmem2 hnd2.2]

/-! ### `initCategorized` -/

theorem dictGet?_initFold (cats : List String) :
    ∀ (d0 : PyDict (List α)) (s : String),
      dictGet? (cats.foldl (fun d c => dictSet d c []) d0) s =
        if s ∈ cats then some [] else dictGet? d0 s := by
  induction cats with
  | nil => intro d0 s; simp
  | cons c cats ih =>
      intro d0 s
      show dictGet? (cats.foldl (fun d c => dictSet d c []) (dictSet d0 c [])) s = _
      rw [ih, dictGet?_dictSet]
      by_cases h1 : s ∈ cats
      · simp [h1]
      · by_cases h2 : s = c <;> simp [h1, h2]

theorem dictGet?_initCategorized (cats : List String) (s : String) :
    dictGet? (initCategorized cats : PyDict (List α)) s =
      if s ∈ cats then some [] else none :=
  dictGet?_initFold cats [] s

theorem contains_eq_mem (cats : List String) (s : String) :
    cats.contains s = decide (s ∈ cats) := by
  by_cases h : s ∈ cats
  · simp only [h, decide_True]
    exact List.elem_iff.mpr h
  · simp only [h, decide_False]
    cases hc : cats.contains s with
    | false => rfl
    | true => exact absurd (List.elem_iff.mp hc) h

theorem dictHasKey_initCategorized (cats : List String) (s : String) :
    dictHasKey (initCategorized cats : PyDict (List α)) s = cats.contains s := by
  rw [dictHasKey_eq_isSome, dictGet?_initCategorized, contains_eq_mem]
  by_cases h : s ∈ cats <;> simp [h]

theorem dictSet_vals_nil (d0 : PyDict (List α)) (c : String)
    (h0 : ∀ kv ∈ d0, kv.2 = []) :
    ∀ kv ∈ dictSet d0 c ([] : List α), kv.2 = [] := by
  induction d0 with
  | nil =>
      intro kv hkv
      obtain rfl : kv = (c, []) := by simpa [dictSet] using hkv
      rfl
  | cons kv0 d0 ih =>
      intro kv hkv
      by_cases h : kv0.1 = c
      · rw [show dictSet (kv0 :: d0) c [] = (c, []) :: d0 from by simp [dictSet, h]] at hkv
        rcases List.mem_cons.mp hkv with rfl | hm
        · rfl
        · exact h0 kv (List.mem_cons_of_mem _ hm)
      · rw [show dictSet (kv0 :: d0) c [] = kv0 :: dictSet d0 c [] from by
          simp [dictSet, h]] at hkv
        rcases List.mem_cons.mp hkv with rfl | hm
        · exact h0 kv (List.mem_cons_self _ _)
        · exact ih (fun kv2 hkv2 => h0 kv2 (List.mem_cons_of_mem _ hkv2)) kv hm

theorem initCategorized_vals (cats : List String) :
    ∀ kv ∈ (initCategorized cats : PyDict (List α)), kv.2 = [] := by
  have hgen : ∀ (cats2 : List String) (d0 : PyDict (List α)),
      (∀ kv ∈ d0, kv.2 = []) →
      ∀ kv ∈ cats2.foldl (fun d c => dictSet d c []) d0, kv.2 = [] := by
    intro cats2
    induction cats2 with
    | nil => intro d0 h0 kv hkv; exact h0 kv hkv
    | cons c cats2 ih =>
        intro d0 h0 kv hkv
        exact ih (dictSet d0 c []) (dictSet_vals_nil d0 c h0) kv hkv
  exact hgen cats [] (by simp)

theorem dictKeys_dictSet_of_has (d : PyDict β) (k : String) (v : β)
    (h : dictHasKey d k = true) : dictKeys (dictSet d k v) = dictKeys d := by
  induction d with
  | nil => simp [dictHasKey] at h
  | cons kv d ih =>
      by_cases hk : kv.1 = k
      · simp [dictSet, dictKeys, hk]
      · have h2 : dictHasKey d k = true := by
          simpa [dictHasKey, hk] using h
        simp [dictSet, dictKeys, hk]
        simpa [dictKeys] using ih h2

theorem dictKeys_dictSet_of_not (d : PyDict β) (k : String) (v : β)
    (h : dictHasKey d k = false) : dictKeys (dictSet d k v) = dictKeys d ++ [k] := by
  induction d with
  | nil => rfl
  | cons kv d ih =>
      have hsplit : ¬kv.1 = k ∧ dictHasKey d k = false := by
        simpa [dictHasKey] using h
      simp [dictSet, dictKeys, hsplit.1]
      simpa [dictKeys] using ih hsplit.2

theorem initCategorized_keys_nodup (cats : List String) :
    (dictKeys (initCategorized cats : PyDict (List α))).Nodup := by
  have hgen : ∀ (cats2 : List String) (d0 : PyDict (List α)),
      (dictKeys d0).Nodup →
      (dictKeys (cats2.foldl (fun d c => dictSet d c []) d0)).Nodup := by
    intro cats2
    induction cats2 with
    | nil => intro d0 h0; exact h0
    | cons c cats2 ih =>
        intro d0 h0
        refine ih (dictSet d0 c []) ?_
        by_cases h : dictHasKey d0 c = true
        · rw [dictKeys_dictSet_of_has _ _ _ h]; exact h0
        · rw [dictKeys_dictSet_of_not _ _ _ (by simpa using h)]
          have hc : c ∉ dictKeys d0 := by
            rw [dictHasKey_eq_isSome] at h
            intro hmem
            rcases List.mem_map.mp hmem with ⟨kv, hkv, hk⟩
            have := dictGet?_isSome_of_mem d0 kv hkv
            rw [hk] at this
            simp [this] at h
          simp [List.nodup_append, h0, hc]
  exact hgen cats [] (by simp [dictKeys])

/-! ### Decoded-object lookup lemmas -/

theorem objHasKey_eq_isSome (ms : List (String × Json)) (k : String) :
    Json.objHasKey ms k = (Json.objGet? ms k).isSome := by
  induction ms with
  | nil => rfl
  | cons kv ms ih =>
      cases hrec : Json.objGet? ms k with
      | some v =>
          rw [hrec] at ih
          simp [Json.objHasKey, Json.objGet?, hrec, List.any_cons]
          exact Or.inr (by simpa [Json.objHasKey] using ih)
      | none =>
          rw [hrec] at ih
          by_cases h : kv.1 = k
          · simp [Json.objHasKey, Json.objGet?, hrec, h]
          · simp only [Json.objHasKey, List.any_cons, Json.objGet?, hrec, h,
              decide_False, Bool.false_or, if_neg h]
            simpa [Json.objHasKey] using ih

theorem objGet?_mem (ms : List (String × Json)) (k : String) (v : Json)
    (h : Json.objGet? ms k = some v) : ∃ kv ∈ ms, kv.2 = v := by
  induction ms with
  | nil => cases h
  | cons kv ms ih =>
      rw [show Json.objGet? (kv :: ms) k =
          (match Json.objGet? ms k with
           | some w => some w
           | none => if kv.1 = k then some kv.2 else none) from rfl] at h
      cases hrec : Json.objGet? ms k with
      | some w =>
          rw [hrec] at h
          obtain ⟨kv2, hkv2, hv⟩ := ih (by rw [hrec]; exact h)
          exact ⟨kv2, List.mem_cons_of_mem _ hkv2, hv⟩
      | none =>
          rw [hrec] at h
          by_cases hk : kv.1 = k
          · rw [if_pos hk] at h
            exact ⟨kv, List.mem_cons_self _ _, Option.some.inj h⟩
          · rw [if_neg hk] at h; cases h

/-! ### Disposition lemmas -/

theorem dispOf_filtered_iff (cats : List String) (oracle : Oracle) (p : Nat) :
    dispOf cats oracle p = .filtered ↔
      assignmentAt oracle p = some (Json.str "FILTER_OUT") := by
  unfold dispOf
  cases h : assignmentAt oracle p with
  | none => simp
  | some v =>
      cases v with
      | str s =>
          by_cases hs : s = "FILTER_OUT"
          · simp [hs]
          · by_cases hc : s ∈ cats <;> simp [hs, hc]
      | null => simp
      | bool b => simp
      | num n => simp
      | arr xs => simp
      | obj ms => simp

/-! ### `specApply` characterization -/

theorem specApply_nil (cats : List String) (oracle : Oracle) (st : AssignState α) :
    specApply cats oracle [] st = st := rfl

theorem specApply_cons (cats : List String) (oracle : Oracle) (pa : Nat × α)
    (ps : List (Nat × α)) (st : AssignState α) :
    specApply cats oracle (pa :: ps) st =
      specApply cats oracle ps
        (match dispOf cats oracle pa.1 with
         | .filtered => { st with filtered_count := st.filtered_count + 1 }
         | .toCat cat => { st with categorized := dictAppend st.categorized cat pa.2 }) := rfl

theorem specApply_filtered_count (cats : List String) (oracle : Oracle) :
    ∀ (ps : List (Nat × α)) (st : AssignState α),
      (specApply cats oracle ps st).filtered_count =
        st.filtered_count + ps.countP (fun pa => dispOf cats oracle pa.1 = Disp.filtered)
  | [], st => by simp [specApply_nil]
  | pa :: ps, st => by
      rw [specApply_cons, List.countP_cons]
      cases hd : dispOf cats oracle pa.1 with
      | filtered =>
          rw [specApply_filtered_count cats oracle ps]
          simp [hd]
          omega
      | toCat cat =>
          rw [specApply_filtered_count cats oracle ps]
          simp [hd]

theorem specApply_lookup (cats : List String) (oracle : Oracle) :
    ∀ (ps : List (Nat × α)) (st : AssignState α) (s : String),
      dictGet? (specApply cats oracle ps st).categorized s =
        (dictGet? st.categorized s).map
          (· ++ (ps.filter (fun pa => dispOf cats oracle pa.1 = Disp.toCat s)).map (·.2))
  | [], st, s => by
      rw [specApply_nil]
      cases dictGet? st.categorized s <;> simp
  | pa :: ps, st, s => by
      rw [specApply_cons, List.filter_cons]
      cases hd : dispOf cats oracle pa.1 with
      | filtered =>
          rw [specApply_lookup cats oracle ps]
          simp [hd]
      | toCat cat =>
          rw [specApply_lookup cats oracle ps]
          show (dictGet? (dictAppend st.categorized cat pa.2) s).map _ = _
          rw [dictGet?_dictAppend]
          by_cases hsc : s = cat
          · subst hsc
            rw [if_pos rfl]
            simp only [hd, decide_True, if_pos]
            cases dictGet? st.categorized s <;> simp
          · rw [if_neg hsc]
            have : (decide (Disp.toCat cat = Disp.toCat s)) = false := by
              simp
              intro h
              exact hsc h.symm
            simp only [hd, this, if_neg, Bool.false_eq_true, if_false]

theorem specApply_keys (cats : List String) (oracle : Oracle) :
    ∀ (ps : List (Nat × α)) (st : AssignState α),
      dictKeys (specApply cats oracle ps st).categorized = dictKeys st.categorized
  | [], st => rfl
  | pa :: ps, st => by
      rw [specApply_cons]
      cases hd : dispOf cats oracle pa.1 with
      | filtered => rw [specApply_keys cats oracle ps]
      | toCat cat =>
          rw [specApply_keys cats oracle ps]
          exact dictKeys_dictAppend _ _ _

theorem specApply_hasKey (cats : List String) (oracle : Oracle)
    (ps : List (Nat × α)) (st : AssignState α) (s : String) :
    dictHasKey (specApply cats oracle ps st).categorized s =
      dictHasKey st.categorized s := by
  rw [dictHasKey_eq_isSome, dictHasKey_eq_isSome, specApply_lookup]
  cases dictGet? st.categorized s <;> simp

theorem specApply_const_toCat (cats : List String) (oracle : Oracle) (cname : String) :
    ∀ (ps : List (Nat × α)) (st : AssignState α),
      (∀ pa ∈ ps, dispOf cats oracle pa.1 = Disp.toCat cname) →
      specApply cats oracle ps st =
        { st with categorized := appendAllFirst cname (ps.map (·.2)) st.categorized }
  | [], st, _ => by simp [specApply_nil, appendAllFirst]
  | pa :: ps, st, h => by
      rw [specApply_cons, h pa (List.mem_cons_self _ _)]
      rw [specApply_const_toCat cats oracle cname ps _
        (fun pa2 hpa2 => h pa2 (List.mem_cons_of_mem _ hpa2))]
      rfl

/-! ### The assignment loop realizes the disposition policy -/

theorem assignmentAt_of_obj (oracle : Oracle) (b j : Nat) (hj : j < ASSIGN_BATCH)
    (t : String) (ms : List (String × Json))
    (hb : oracle b = .success t) (ht : decode_json t = some (.obj ms)) :
    assignmentAt oracle (ASSIGN_BATCH * b + j) =
      Json.objGet? ms (toString (j + 1)) := by
  have hj10 : j < 10 := hj
  have hdiv : (ASSIGN_BATCH * b + j) / ASSIGN_BATCH = b := by
    show (10 * b + j) / 10 = b
    omega
  have hmod : (ASSIGN_BATCH * b + j) % ASSIGN_BATCH = j := by
    show (10 * b + j) % 10 = j
    omega
  simp only [assignmentAt, hdiv, hb, ht, hmod]

theorem assignmentAt_of_failure (oracle : Oracle) (b j : Nat) (hj : j < ASSIGN_BATCH)
    (hfail : callLevelFailure (oracle b) ∨
      ∃ t v, oracle b = .success t ∧ decode_json t = some v ∧ ∀ ms, v ≠ Json.obj ms) :
    assignmentAt oracle (ASSIGN_BATCH * b + j) = none := by
  have hj10 : j < 10 := hj
  have hdiv : (ASSIGN_BATCH * b + j) / ASSIGN_BATCH = b := by
    show (10 * b + j) / 10 = b
    omega
  rcases hfail with (hb | ⟨t, hb, ht⟩) | ⟨t, v, hb, ht, hv⟩
  · simp only [assignmentAt, hdiv, hb]
  · simp only [assignmentAt, hdiv, hb, ht]
  · simp only [assignmentAt, hdiv, hb, ht]
    cases v with
    | obj ms => exact absurd rfl (hv ms)
    | null => rfl
    | bool b2 => rfl
    | num n => rfl
    | str s => rfl
    | arr xs => rfl

theorem assignOne_good (c : String) (cs : List String) (oracle : Oracle) (b : Nat)
    (t : String) (ms : List (String × Json))
    (hb : oracle b = .success t) (ht : decode_json t = some (.obj ms))
    (hvals : ∀ kv ∈ ms, Json.hashable kv.2 = true)
    (j : Nat) (hj : j < ASSIGN_BATCH) (a : α) (st : AssignState α)
    (hinv : ∀ s, dictHasKey st.categorized s = (c :: cs).contains s) :
    assignOne (c :: cs) (Json.obj ms) j a st =
      .ok (specApply (c :: cs) oracle [(ASSIGN_BATCH * b + j, a)] st) := by
  have hassign := assignmentAt_of_obj oracle b j hj t ms hb ht
  have hspec : specApply (c :: cs) oracle [(ASSIGN_BATCH * b + j, a)] st =
      (match dispOf (c :: cs) oracle (ASSIGN_BATCH * b + j) with
       | .filtered => { st with filtered_count := st.filtered_count + 1 }
       | .toCat cat => { st with categorized := dictAppend st.categorized cat a }) := by
    rw [specApply_cons]
    cases dispOf (c :: cs) oracle (ASSIGN_BATCH * b + j) <;> rfl
  rw [hspec]
  unfold dispOf
  rw [hassign]
  show (match some (Json.objHasKey ms (toString (j + 1))) with
        | none => Except.error st
        | some false => appendFirst (c :: cs) st a
        | some true =>
            match Json.objGet? ms (toString (j + 1)) with
            | none => Except.error st
            | some (.str s) =>
                if s = "FILTER_OUT" then
                  Except.ok { st with filtered_count := st.filtered_count + 1 }
                else if dictHasKey st.categorized s then
                  Except.ok { st with categorized := dictAppend st.categorized s a }
                else appendFirst (c :: cs) st a
            | some (.arr _) => Except.error st
            | some (.obj _) => Except.error st
            | some _ => appendFirst (c :: cs) st a) = _
  rw [objHasKey_eq_isSome]
  cases hg : Json.objGet? ms (toString (j + 1)) with
  | none => rfl
  | some v =>
      cases v with
      | str s =>
          show (if s = "FILTER_OUT" then
                  Except.ok { st with filtered_count := st.filtered_count + 1 }
                else if dictHasKey st.categorized s then
                  Except.ok { st with categorized := dictAppend st.categorized s a }
                else appendFirst (c :: cs) st a) =
            Except.ok (match (if s = "FILTER_OUT" then Disp.filtered
                else if (c :: cs).contains s then Disp.toCat s
                else Disp.toCat ((c :: cs).headD "")) with
              | Disp.filtered => { st with filtered_count := st.filtered_count + 1 }
              | Disp.toCat cat => { st with categorized := dictAppend st.categorized cat a })
          by_cases hs : s = "FILTER_OUT"
          · rw [if_pos hs, if_pos hs]
          · rw [if_neg hs, if_neg hs, hinv s]
            cases hc : (c :: cs).contains s with
            | true => rw [if_pos rfl, if_pos rfl]
            | false =>
                rw [if_neg (by simp), if_neg (by simp)]
                rfl
      | arr xs =>
          obtain ⟨kv, hkv, hv⟩ := objGet?_mem ms _ _ hg
          have hh := hvals kv hkv
          rw [hv] at hh
          cases hh
      | obj ms2 =>
          obtain ⟨kv, hkv, hv⟩ := objGet?_mem ms _ _ hg
          have hh := hvals kv hkv
          rw [hv] at hh
          cases hh
      | null => rfl
      | bool b2 => rfl
      | num n => rfl

theorem assignLoop_good (c : String) (cs : List String) (oracle : Oracle) (b : Nat)
    (t : String) (ms : List (String × Json))
    (hb : oracle b = .success t) (ht : decode_json t = some (.obj ms))
    (hvals : ∀ kv ∈ ms, Json.hashable kv.2 = true) :
    ∀ (batch : List α) (j : Nat) (st : AssignState α),
      j + batch.length ≤ ASSIGN_BATCH →
      (∀ s, dictHasKey st.categorized s = (c :: cs).contains s) →
      assignLoop (c :: cs) (Json.obj ms) batch j st =
        .ok (specApply (c :: cs) oracle (batch.enumFrom (ASSIGN_BATCH * b + j)) st)
  | [], j, st, _, _ => rfl
  | a :: batch, j, st, hlen, hinv => by
      have hj : j < ASSIGN_BATCH := by
        simp only [List.length_cons] at hlen
        omega
      have h1 := assignOne_good c cs oracle b t ms hb ht hvals j hj a st hinv
      show (match assignOne (c :: cs) (Json.obj ms) j a st with
            | .error st2 => Except.error st2
            | .ok st2 => assignLoop (c :: cs) (Json.obj ms) batch (j + 1) st2) = _
      rw [h1]
      have hinv2 : ∀ s, dictHasKey
          (specApply (c :: cs) oracle [(ASSIGN_BATCH * b + j, a)] st).categorized s =
          (c :: cs).contains s := by
        intro s
        rw [specApply_hasKey]
        exact hinv s
      have h2 := assignLoop_good c cs oracle b t ms hb ht hvals batch (j + 1)
        (specApply (c :: cs) oracle [(ASSIGN_BATCH * b + j, a)] st)
        (by simp only [List.length_cons] at hlen; omega) hinv2
      show assignLoop (c :: cs) (Json.obj ms) batch (j + 1) _ = _
      rw [h2]
      show Except.ok (specApply (c :: cs) oracle (batch.enumFrom (ASSIGN_BATCH * b + (j + 1)))
        (specApply (c :: cs) oracle [(ASSIGN_BATCH * b + j, a)] st)) = _
      rw [show (a :: batch).enumFrom (ASSIGN_BATCH * b + j) =
          (ASSIGN_BATCH * b + j, a) :: batch.enumFrom (ASSIGN_BATCH * b + j + 1) from rfl]
      rw [show ASSIGN_BATCH * b + (j + 1) = ASSIGN_BATCH * b + j + 1 from by omega]
      rfl

theorem processBatch_good (c : String) (cs : List String) (oracle : Oracle) (b : Nat)
    (batch : List α) (st : AssignState α)
    (hgood : GoodResp (oracle b)) (hlen : batch.length ≤ ASSIGN_BATCH)
    (hinv : ∀ s, dictHasKey st.categorized s = (c :: cs).contains s) :
    processBatch (c :: cs) batch st (oracle b) =
      .ok (specApply (c :: cs) oracle (batch.enumFrom (ASSIGN_BATCH * b)) st) := by
  have hconst : callLevelFailure (oracle b) →
      specApply (c :: cs) oracle (batch.enumFrom (ASSIGN_BATCH * b)) st =
        { st with categorized := appendAllFirst c batch st.categorized } := by
    intro hfail
    rw [specApply_const_toCat (c :: cs) oracle c (batch.enumFrom (ASSIGN_BATCH * b)) st ?hall]
    · rw [List.enumFrom_map_snd]
    case hall =>
      intro pa hpa
      obtain ⟨hge, hlt, _⟩ := List.mem_enumFrom hpa
      have hzero : assignmentAt oracle pa.1 = none := by
        have hrepr : pa.1 = ASSIGN_BATCH * b + (pa.1 - ASSIGN_BATCH * b) := by omega
        rw [hrepr]
        exact assignmentAt_of_failure oracle b _ (by omega) (Or.inl hfail)
      unfold dispOf
      rw [hzero]
      rfl
  rcases hgood with hfail | ⟨t, ms, hb, ht, hvals⟩
  · rw [hconst hfail]
    rcases hfail with hb | ⟨t, hb, ht⟩
    · rw [hb]; rfl
    · rw [hb]
      show (match decode_json t with
            | none => exceptFallback (c :: cs) batch st
            | some assignments =>
                match assignLoop (c :: cs) assignments batch 0 st with
                | .ok st2 => Except.ok st2
                | .error st2 => exceptFallback (c :: cs) batch st2) = _
      rw [ht]
      rfl
  · rw [hb]
    show (match decode_json t with
          | none => exceptFallback (c :: cs) batch st
          | some assignments =>
              match assignLoop (c :: cs) assignments batch 0 st with
              | .ok st2 => Except.ok st2
              | .error st2 => exceptFallback (c :: cs) batch st2) = _
    rw [ht]
    have hl := assignLoop_good c cs oracle b t ms hb ht hvals batch 0 st
      (by omega) hinv
    show (match assignLoop (c :: cs) (Json.obj ms) batch 0 st with
          | .ok st2 => Except.ok st2
          | .error st2 => exceptFallback (c :: cs) batch st2) = _
    rw [hl]
    simp only [Nat.add_zero]

theorem specApply_append (cats : List String) (oracle : Oracle)
    (ps1 ps2 : List (Nat × α)) (st : AssignState α) :
    specApply cats oracle (ps1 ++ ps2) st =
      specApply cats oracle ps2 (specApply cats oracle ps1 st) :=
  List.foldl_append ..

theorem categorizeGo_spec (c : String) (cs : List String) (oracle : Oracle)
    (hgood : ∀ b2, GoodResp (oracle b2)) :
    ∀ (fuel : Nat) (suffix : List α) (b : Nat) (st : AssignState α),
      suffix.length ≤ fuel →
      (∀ s, dictHasKey st.categorized s = (c :: cs).contains s) →
      categorizeGo (c :: cs) oracle fuel suffix b st =
        .ok (specApply (c :: cs) oracle (suffix.enumFrom (ASSIGN_BATCH * b)) st)
  | fuel, [], b, st, _, _ => by cases fuel <;> rfl
  | 0, a :: rest, b, st, hlen, _ => by simp at hlen
  | fuel + 1, a :: rest, b, st, hlen, hinv => by
      have hbatch := processBatch_good c cs oracle b ((a :: rest).take ASSIGN_BATCH) st
        (hgood b) (List.length_take_le ASSIGN_BATCH (a :: rest)) hinv
      show (match processBatch (c :: cs) ((a :: rest).take ASSIGN_BATCH) st (oracle b) with
            | .error e => Except.error e
            | .ok st2 => categorizeGo (c :: cs) oracle fuel
                (rest.drop (ASSIGN_BATCH - 1)) (b + 1) st2) = _
      rw [hbatch]
      have hinv2 : ∀ s, dictHasKey (specApply (c :: cs) oracle
          (((a :: rest).take ASSIGN_BATCH).enumFrom (ASSIGN_BATCH * b)) st).categorized s =
          (c :: cs).contains s := by
        intro s
        rw [specApply_hasKey]
        exact hinv s
      have hrec := categorizeGo_spec c cs oracle hgood fuel (rest.drop (ASSIGN_BATCH - 1))
        (b + 1) _ (by
          simp only [List.length_cons] at hlen
          simp only [List.length_drop]
          omega) hinv2
      show categorizeGo (c :: cs) oracle fuel (rest.drop (ASSIGN_BATCH - 1)) (b + 1) _ = _
      rw [hrec]
      have hsplit : (a :: rest) = (a :: rest).take ASSIGN_BATCH ++ rest.drop (ASSIGN_BATCH - 1) := by
        rw [show rest.drop (ASSIGN_BATCH - 1) = (a :: rest).drop ASSIGN_BATCH from rfl]
        exact (List.take_append_drop ASSIGN_BATCH (a :: rest)).symm
      by_cases hsize : (a :: rest).length ≤ ASSIGN_BATCH
      · have hdropnil : rest.drop (ASSIGN_BATCH - 1) = [] := by
          apply List.drop_eq_nil_of_le
          simp only [List.length_cons] at hsize
          omega
        have htake : (a :: rest).take ASSIGN_BATCH = a :: rest :=
          List.take_of_length_le hsize
        rw [hdropnil, htake]
        rfl
      · have htlen : ((a :: rest).take ASSIGN_BATCH).length = ASSIGN_BATCH := by
          rw [List.length_take]
          omega
        conv_rhs => rw [hsplit]
        rw [List.enumFrom_append, specApply_append, htlen]
        rw [show ASSIGN_BATCH * b + ASSIGN_BATCH = ASSIGN_BATCH * (b + 1) from by ring]

theorem mem_dictKeys_iff_hasKey (d : PyDict β) (s : String) :
    s ∈ dictKeys d ↔ dictHasKey d s = true := by
  induction d with
  | nil =>
      constructor
      · intro h; cases h
      · intro h; cases h
  | cons kv d ih =>
      rw [show dictKeys (kv :: d) = kv.1 :: dictKeys d from rfl, List.mem_cons]
      rw [show dictHasKey (kv :: d) s =
        (decide (kv.1 = s) || dictHasKey d s) from rfl]
      rw [Bool.or_eq_true, decide_eq_true_eq]
      constructor
      · intro hc
        rcases hc with rfl | hm
        · exact Or.inl rfl
        · exact Or.inr (ih.mp hm)
      · intro hc
        rcases hc with rfl | hm
        · exact Or.inl rfl
        · exact Or.inr (ih.mpr hm)

theorem nodup_filter_eq_singleton (l : List String) (a : String)
    (hnd : l.Nodup) (ha : a ∈ l) : l.filter (fun x => x = a) = [a] := by
  induction l with
  | nil => cases ha
  | cons b l ih =>
      have hnd2 : b ∉ l ∧ l.Nodup := by simpa using hnd
      by_cases h : b = a
      · subst h
        have hnil : l.filter (fun x => x = b) = [] := by
          apply List.filter_eq_nil_iff.mpr
          intro x hx
          simp only [decide_eq_true_eq]
          intro hxa
          exact hnd2.1 (hxa ▸ hx)
        simp [List.filter_cons, hnil]
      · have ha2 : a ∈ l := by
          rcases List.mem_cons.mp ha with rfl | hm
          · exact absurd rfl h
          · exact hm
        simp [List.filter_cons, h, ih hnd2.2 ha2]

theorem dispOf_toCat_mem (c : String) (cs : List String) (oracle : Oracle) (p : Nat)
    (s0 : String) (h : dispOf (c :: cs) oracle p = .toCat s0) : s0 ∈ c :: cs := by
  unfold dispOf at h
  cases ha : assignmentAt oracle p with
  | none =>
      rw [ha] at h
      obtain rfl : (c :: cs).headD "" = s0 := by injection h
      exact List.mem_cons_self _ _
  | some v =>
      rw [ha] at h
      cases v with
      | str s =>
          have h2 : (if s = "FILTER_OUT" then Disp.filtered
              else if (c :: cs).contains s = true then Disp.toCat s
              else Disp.toCat ((c :: cs).headD "")) = Disp.toCat s0 := h
          by_cases hs : s = "FILTER_OUT"
          · rw [if_pos hs] at h2; cases h2
          · rw [if_neg hs] at h2
            cases hc : (c :: cs).contains s with
            | true =>
                rw [if_pos (by rw [hc])] at h2
                obtain rfl : s = s0 := by injection h2
                rw [contains_eq_mem] at hc
                simpa using hc
            | false =>
                rw [if_neg (by rw [hc]; exact Bool.false_ne_true)] at h2
                obtain rfl : (c :: cs).headD "" = s0 := by injection h2
                exact List.mem_cons_self _ _
      | null =>
          obtain rfl : (c :: cs).headD "" = s0 := by injection h
          exact List.mem_cons_self _ _
      | bool b =>
          obtain rfl : (c :: cs).headD "" = s0 := by injection h
          exact List.mem_cons_self _ _
      | num n =>
          obtain rfl : (c :: cs).headD "" = s0 := by injection h
          exact List.mem_cons_self _ _
      | arr xs =>
          obtain rfl : (c :: cs).headD "" = s0 := by injection h
          exact List.mem_cons_self _ _
      | obj ms =>
          obtain rfl : (c :: cs).headD "" = s0 := by injection h
          exact List.mem_cons_self _ _

theorem selectedArticles_sublist (cats : List String) (oracle : Oracle)
    (articles : List α) (s : String) :
    List.Sublist (selectedArticles cats oracle articles s) articles := by
  unfold selectedArticles
  have h1 := (List.filter_sublist (l := articles.enum)
    (p := fun pa => dispOf cats oracle pa.1 = Disp.toCat s)).map Prod.snd
  rw [List.enum_map_snd] at h1
  exact h1

theorem mem_enum_iff (articles : List α) (p : Nat) (x : α) :
    (p, x) ∈ articles.enum ↔ ∃ hp : p < articles.length, articles[p] = x := by
  constructor
  · intro h
    obtain ⟨h1, h2, h3⟩ := List.mem_enumFrom h
    refine ⟨by simpa using h2, ?_⟩
    simpa using h3.symm
  · rintro ⟨hp, rfl⟩
    rw [List.mem_iff_getElem?]
    refine ⟨p, ?_⟩
    rw [show articles.enum = articles.enumFrom 0 from rfl, List.getElem?_enumFrom]
    simp [List.getElem?_eq_getElem hp]

theorem mem_selectedArticles_iff [DecidableEq α] (cats : List String) (oracle : Oracle)
    (articles : List α) (hnd : articles.Nodup) (i : Nat) (hi : i < articles.length)
    (s : String) :
    articles[i] ∈ selectedArticles cats oracle articles s ↔
      dispOf cats oracle i = Disp.toCat s := by
  unfold selectedArticles
  constructor
  · intro h
    obtain ⟨pa, hpa, hx⟩ := List.mem_map.mp h
    obtain ⟨hmem, hP⟩ := List.mem_filter.mp hpa
    obtain ⟨p, y⟩ := pa
    obtain ⟨hp, hy⟩ := (mem_enum_iff articles p y).mp hmem
    have hpi : p = i := by
      apply (List.Nodup.getElem_inj_iff hnd).mp
      rw [hy]
      exact hx
    subst hpi
    simpa using hP
  · intro h
    apply List.mem_map.mpr
    refine ⟨(i, articles[i]), ?_, rfl⟩
    apply List.mem_filter.mpr
    exact ⟨(mem_enum_iff articles i articles[i]).mpr ⟨hi, rfl⟩, by simpa using h⟩

/-- C1 (amended): with a nonempty category list, duplicate-free articles, and
every batch response either failing at call level or decoding to an object
with no container values, `categorize_articles` returns a state in which the
filtered-out tally counts exactly the positions whose decoded assignment is
the `FILTER_OUT` sentinel, every tallied article appears in no category list,
every other article appears in exactly one of the duplicate-free category
lists, and a position whose key is absent or whose value names no known
category lands in the first category's list. -/
theorem categorize_articles_accounting (α : Type) [DecidableEq α]
    (articles : List α) (c : String) (cs : List String) (oracle : Oracle)
    (hgood : ∀ b, GoodResp (oracle b)) (hnd : articles.Nodup) :
    ∃ st, categorize_articles articles (c :: cs) oracle = .ok st ∧
      st.filtered_count = (List.range articles.length).countP
        (fun p => assignmentAt oracle p = some (Json.str "FILTER_OUT")) ∧
      (∀ kv ∈ st.categorized, kv.2.Nodup) ∧
      (∀ i, (hi : i < articles.length) →
        (assignmentAt oracle i = some (Json.str "FILTER_OUT") →
          ∀ kv ∈ st.categorized, articles[i] ∉ kv.2) ∧
        (assignmentAt oracle i ≠ some (Json.str "FILTER_OUT") →
          st.categorized.countP (fun kv => articles[i] ∈ kv.2) = 1) ∧
        ((assignmentAt oracle i = none ∨
          (∃ v, assignmentAt oracle i = some v ∧ ∀ s, v ≠ Json.str s) ∨
          (∃ s, assignmentAt oracle i = some (Json.str s) ∧ s ≠ "FILTER_OUT" ∧
            (c :: cs).contains s = false)) →
          articles[i] ∈ (dictGet? st.categorized c).getD [])) := by
  have hinv0 : ∀ s, dictHasKey (initCategorized (c :: cs) : PyDict (List α)) s =
      (c :: cs).contains s := fun s => dictHasKey_initCategorized (c :: cs) s
  have hrun := categorizeGo_spec c cs oracle hgood articles.length articles 0
    ⟨initCategorized (c :: cs), 0⟩ (le_refl _) hinv0
  rw [show ASSIGN_BATCH * 0 = 0 from rfl] at hrun
  rw [show (articles.enumFrom 0) = articles.enum from rfl] at hrun
  set stF := specApply (c :: cs) oracle articles.enum
    (⟨initCategorized (c :: cs), 0⟩ : AssignState α) with hstF
  have hkeys : dictKeys stF.categorized =
      dictKeys (initCategorized (c :: cs) : PyDict (List α)) := by
    rw [hstF]; exact specApply_keys (c :: cs) oracle _ _
  have hknd : (dictKeys stF.categorized).Nodup := by
    rw [hkeys]; exact initCategorized_keys_nodup (c :: cs)
  have hentry : ∀ kv ∈ stF.categorized,
      kv.2 = selectedArticles (c :: cs) oracle articles kv.1 ∧ kv.1 ∈ (c :: cs) := by
    intro kv hkv
    have hget := dictGet?_of_mem stF.categorized kv hkv hknd
    have hmemk : kv.1 ∈ (c :: cs) := by
      have h1 : kv.1 ∈ dictKeys stF.categorized := List.mem_map_of_mem (·.1) hkv
      rw [hkeys, mem_dictKeys_iff_hasKey, dictHasKey_initCategorized,
        contains_eq_mem] at h1
      simpa using h1
    have hlook : dictGet? stF.categorized kv.1 =
        some (selectedArticles (c :: cs) oracle articles kv.1) := by
      rw [hstF, specApply_lookup]
      show (dictGet? (initCategorized (c :: cs)) kv.1).map _ = _
      rw [dictGet?_initCategorized, if_pos hmemk]
      rfl
    rw [hget] at hlook
    exact ⟨Option.some.inj hlook, hmemk⟩
  refine ⟨stF, hrun, ?_, ?_, ?_⟩
  · rw [hstF, specApply_filtered_count]
    show 0 + _ = _
    rw [Nat.zero_add]
    rw [show (articles.enum.countP fun pa => dispOf (c :: cs) oracle pa.1 = Disp.filtered) =
        articles.enum.countP
          ((fun p => decide (dispOf (c :: cs) oracle p = Disp.filtered)) ∘ Prod.fst) from rfl]
    rw [← List.countP_map, List.enum_map_fst]
    apply List.countP_congr
    intro p _
    simp only [decide_eq_true_eq]
    exact dispOf_filtered_iff (c :: cs) oracle p
  · intro kv hkv
    rw [(hentry kv hkv).1]
    exact (selectedArticles_sublist (c :: cs) oracle articles kv.1).nodup hnd
  · intro i hi
    have hmemsel : ∀ s, articles[i] ∈ selectedArticles (c :: cs) oracle articles s ↔
        dispOf (c :: cs) oracle i = Disp.toCat s :=
      fun s => mem_selectedArticles_iff (c :: cs) oracle articles hnd i hi s
    refine ⟨?_, ?_, ?_⟩
    · intro hfo kv hkv hmem
      rw [(hentry kv hkv).1] at hmem
      have hdisp := (hmemsel kv.1).mp hmem
      rw [(dispOf_filtered_iff (c :: cs) oracle i).mpr hfo] at hdisp
      cases hdisp
    · intro hnf
      obtain ⟨s0, hs0⟩ : ∃ s0, dispOf (c :: cs) oracle i = Disp.toCat s0 := by
        cases hd : dispOf (c :: cs) oracle i with
        | filtered => exact absurd ((dispOf_filtered_iff _ _ _).mp hd) hnf
        | toCat s0 => exact ⟨s0, rfl⟩
      have hs0mem : s0 ∈ (c :: cs) := dispOf_toCat_mem c cs oracle i s0 hs0
      have hs0keys : s0 ∈ dictKeys stF.categorized := by
        rw [hkeys, mem_dictKeys_iff_hasKey, dictHasKey_initCategorized,
          contains_eq_mem]
        simpa using hs0mem
      have hcongr : stF.categorized.countP (fun kv => articles[i] ∈ kv.2) =
          stF.categorized.countP (fun kv => kv.1 = s0) := by
        apply List.countP_congr
        intro kv hkv
        simp only [decide_eq_true_eq]
        rw [(hentry kv hkv).1, hmemsel kv.1, hs0]
        constructor
        · intro h
          injection h with h
          exact h.symm
        · intro h
          rw [h]
      rw [hcongr]
      rw [show (stF.categorized.countP fun kv => kv.1 = s0) =
          stF.categorized.countP ((fun s => decide (s = s0)) ∘ Prod.fst) from rfl]
      rw [← List.countP_map]
      rw [show (stF.categorized.map Prod.fst) = dictKeys stF.categorized from rfl]
      rw [List.countP_eq_length_filter, nodup_filter_eq_singleton _ _ hknd hs0keys]
      rfl
    · intro hcase
      have hdisp : dispOf (c :: cs) oracle i = Disp.toCat c := by
        unfold dispOf
        rcases hcase with h0 | ⟨v, hva, hvb⟩ | ⟨s, hs, hsf, hsc⟩
        · rw [h0]
          rfl
        · rw [hva]
          cases v with
          | str s => exact absurd rfl (hvb s)
          | null => rfl
          | bool b => rfl
          | num n => rfl
          | arr xs => rfl
          | obj ms => rfl
        · rw [hs]
          show (if s = "FILTER_OUT" then Disp.filtered
              else if (c :: cs).contains s = true then Disp.toCat s
              else Disp.toCat ((c :: cs).headD "")) = Disp.toCat c
          rw [if_neg hsf, if_neg (by rw [hsc]; exact Bool.false_ne_true)]
          rfl
      have hcmem : c ∈ (c :: cs) := List.mem_cons_self _ _
      have hlook : dictGet? stF.categorized c =
          some (selectedArticles (c :: cs) oracle articles c) := by
        rw [hstF, specApply_lookup]
        show (dictGet? (initCategorized (c :: cs)) c).map _ = _
        rw [dictGet?_initCategorized, if_pos hcmem]
        rfl
      rw [hlook]
      show articles[i] ∈ selectedArticles (c :: cs) oracle articles c
      exact (hmemsel c).mpr hdisp

/-- Witness for the amended C1 accounting: four articles, categories "A" and
"B", a constant response assigning position 0 to "B", position 1 to the
filter sentinel, position 2 to an unknown name and leaving position 3
unassigned; exactly one position is tallied as filtered. -/
theorem categorize_articles_accounting_witness :
    ∃ st : AssignState Nat,
      categorize_articles [0, 1, 2, 3] ("A" :: ["B"]) oracleAssignWitness =
        Except.ok st ∧ st.filtered_count = 1 := by
  obtain ⟨st, h1, h2, h3, h4⟩ := categorize_articles_accounting Nat [0, 1, 2, 3]
    "A" ["B"] oracleAssignWitness
    (fun b => Or.inr ⟨"\x7b\"1\": \"B\", \"2\": \"FILTER_OUT\", \"3\": \"Nope\"\x7d",
      [("1", Json.str "B"), ("2", Json.str "FILTER_OUT"), ("3", Json.str "Nope")],
      rfl, by decide, by decide⟩)
    (by decide)
  refine ⟨st, h1, ?_⟩
  rw [h2]
  decide

theorem joinVals_append (d1 d2 : List (σ × List α)) :
    joinVals (d1 ++ d2) = joinVals d1 ++ joinVals d2 :=
  List.flatMap_append d1 d2 _

theorem joinVals_perm (d1 d2 : List (σ × List α)) (h : List.Perm d1 d2) :
    List.Perm (joinVals d1) (joinVals d2) := by
  unfold joinVals
  rw [List.flatMap_def, List.flatMap_def]
  exact (h.map (·.2)).flatten

theorem removedArticlesOf_of_entries (d : PyDict (List α)) (sub : PyDict (List α))
    (hnd : (dictKeys d).Nodup) (hsub : ∀ kv ∈ sub, kv ∈ d) :
    removedArticlesOf d (sub.map (·.1)) = joinVals sub := by
  induction sub with
  | nil => rfl
  | cons kv rest ih =>
      show (dictGet? d kv.1).getD [] ++ removedArticlesOf d (rest.map (·.1)) =
        kv.2 ++ joinVals rest
      rw [dictGet?_of_mem d kv (hsub kv (by simp)) hnd]
      rw [ih (fun kv2 h2 => hsub kv2 (by simp [h2]))]
      rfl

theorem sizeFilterStage_accounting (d : PyDict (List α)) (hnd : (dictKeys d).Nodup) :
    List.Perm (joinVals (sizeFilterStage d).1 ++
      removedArticlesOf d (sizeFilterStage d).2) (joinVals d) := by
  show List.Perm (joinVals (d.filter fun kv => kv.2.length ≥ 2) ++
    removedArticlesOf d ((d.filter fun kv => kv.2.length < 2).map (·.1))) (joinVals d)
  rw [removedArticlesOf_of_entries d _ hnd (fun kv h => List.mem_of_mem_filter h)]
  rw [show (d.filter fun kv => kv.2.length < 2) =
      (d.filter fun kv => !(decide (kv.2.length ≥ 2))) from
    List.filter_congr (fun kv _ => by
      by_cases h : kv.2.length < 2
      · simp [h, show ¬(kv.2.length ≥ 2) from by omega]
      · simp [h, show kv.2.length ≥ 2 from by omega])]
  rw [← joinVals_append]
  exact joinVals_perm _ _ (List.filter_append_perm _ d)

theorem relevanceResults_length (n : Nat) (resp : CallResult) :
    (relevanceResults n resp).length = n := by
  cases resp with
  | failure => simp [relevanceResults]
  | success t =>
      cases h : decode_json t with
      | none => simp [relevanceResults, h]
      | some v =>
          cases v with
          | arr rs =>
              by_cases hl : rs.length = n
              · simp [relevanceResults, h, hl]
              · simp [relevanceResults, h, hl]
          | null => simp [relevanceResults, h]
          | bool b => simp [relevanceResults, h]
          | num m => simp [relevanceResults, h]
          | str s => simp [relevanceResults, h]
          | obj ms => simp [relevanceResults, h]

theorem validateGo_accounting (oracle : Oracle) :
    ∀ (fuel : Nat) (d : PyDict β) (k : Nat), d.length ≤ fuel →
      ∃ dropped : PyDict β,
        List.Perm ((validateGo oracle fuel d k).1 ++ dropped) d ∧
        (validateGo oracle fuel d k).2.1 = dropped.map (·.1)
  | fuel, [], k, _ => ⟨[], by cases fuel <;> simp [validateGo]⟩
  | 0, kv :: rest, k, hlen => by simp at hlen
  | fuel + 1, kv :: rest, k, hlen => by
      obtain ⟨droppedR, hpermR, hnamesR⟩ := validateGo_accounting oracle fuel
        (rest.drop (VALIDATE_BATCH - 1)) (k + 1)
        (by
          have hv : VALIDATE_BATCH = 5 := rfl
          simp only [List.length_cons] at hlen
          simp only [List.length_drop, hv]
          omega)
      set pairs := (kv :: rest).take VALIDATE_BATCH with hpairs
      set rs := relevanceResults pairs.length (oracle k) with hrs
      set z := pairs.zip rs with hz
      set out := validateGo oracle fuel (rest.drop (VALIDATE_BATCH - 1)) (k + 1) with hout
      have hunfold : validateGo oracle (fuel + 1) (kv :: rest) k =
          ((z.filter (fun p => Json.pyTruthy p.2)).map (·.1) ++ out.1,
           (z.filter (fun p => !Json.pyTruthy p.2)).map (·.1.1) ++ out.2.1,
           out.2.2) := rfl
      rw [hunfold]
      refine ⟨(z.filter (fun p => !Json.pyTruthy p.2)).map (·.1) ++ droppedR, ?_, ?_⟩
      · have hrslen : rs.length = pairs.length := relevanceResults_length _ _
        have hmapfst : z.map (·.1) = pairs :=
          List.map_fst_zip pairs rs (by rw [hrslen])
        have hbatch : List.Perm
            ((z.filter (fun p => Json.pyTruthy p.2)).map (·.1) ++
             (z.filter (fun p => !Json.pyTruthy p.2)).map (·.1)) pairs := by
          rw [← List.map_append]
          have hp := (List.filter_append_perm (fun p => Json.pyTruthy p.2) z).map (·.1)
          rw [hmapfst] at hp
          exact hp
        have hsplit : kv :: rest = pairs ++ rest.drop (VALIDATE_BATCH - 1) := by
          rw [hpairs, show rest.drop (VALIDATE_BATCH - 1) =
            (kv :: rest).drop VALIDATE_BATCH from rfl]
          exact (List.take_append_drop VALIDATE_BATCH (kv :: rest)).symm
        have e1 : ((z.filter (fun p => Json.pyTruthy p.2)).map (·.1) ++ out.1) ++
            ((z.filter (fun p => !Json.pyTruthy p.2)).map (·.1) ++ droppedR) =
            (z.filter (fun p => Json.pyTruthy p.2)).map (·.1) ++
              ((out.1 ++ (z.filter (fun p => !Json.pyTruthy p.2)).map (·.1)) ++ droppedR) := by
          simp [List.append_assoc]
        have e2 : ((z.filter (fun p => Json.pyTruthy p.2)).map (·.1) ++
              (z.filter (fun p => !Json.pyTruthy p.2)).map (·.1)) ++ (out.1 ++ droppedR) =
            (z.filter (fun p => Json.pyTruthy p.2)).map (·.1) ++
              (((z.filter (fun p => !Json.pyTruthy p.2)).map (·.1) ++ out.1) ++ droppedR) := by
          simp [List.append_assoc]
        have hshuf : List.Perm
            (((z.filter (fun p => Json.pyTruthy p.2)).map (·.1) ++ out.1) ++
             ((z.filter (fun p => !Json.pyTruthy p.2)).map (·.1) ++ droppedR))
            (((z.filter (fun p => Json.pyTruthy p.2)).map (·.1) ++
              (z.filter (fun p => !Json.pyTruthy p.2)).map (·.1)) ++ (out.1 ++ droppedR)) := by
          rw [e1, e2]
          exact ((List.perm_append_comm).append_right droppedR).append_left _
        refine hshuf.trans ?_
        rw [hsplit]
        exact hbatch.append hpermR
      · rw [hnamesR]
        rw [show (z.filter (fun p => !Json.pyTruthy p.2)).map (·.1.1) =
            ((z.filter (fun p => !Json.pyTruthy p.2)).map (·.1)).map (·.1) from by
          rw [List.map_map]
          rfl]
        rw [← List.map_append]

theorem dictAppend_no_key (d : PyDict (List α)) (s : String) (a : α)
    (h : dictHasKey d s = false) : dictAppend d s a = d := by
  induction d with
  | nil => rfl
  | cons kv d ih =>
      have h2 : (decide (kv.1 = s) || dictHasKey d s) = false := h
      rw [Bool.or_eq_false_iff] at h2
      show (if kv.1 = s then (kv.1, kv.2 ++ [a]) else kv) :: dictAppend d s a = kv :: d
      rw [if_neg (of_decide_eq_false h2.1), ih h2.2]

theorem joinVals_dictAppend (d : PyDict (List α)) (s : String) (a : α)
    (hnd : (dictKeys d).Nodup) (hk : dictHasKey d s = true) :
    List.Perm (joinVals (dictAppend d s a)) (a :: joinVals d) := by
  induction d with
  | nil => cases hk
  | cons kv d ih =>
      have hnd2 : kv.1 ∉ dictKeys d ∧ (dictKeys d).Nodup := by simpa [dictKeys] using hnd
      by_cases h : kv.1 = s
      · have htail : dictHasKey d s = false := by
          cases hh : dictHasKey d s
          · rfl
          · exact absurd (h ▸ (mem_dictKeys_iff_hasKey d s).mpr hh) hnd2.1
        show List.Perm
          (joinVals ((if kv.1 = s then (kv.1, kv.2 ++ [a]) else kv) :: dictAppend d s a))
          (a :: (kv.2 ++ joinVals d))
        rw [if_pos h, dictAppend_no_key d s a htail]
        show List.Perm ((kv.2 ++ [a]) ++ joinVals d) (a :: (kv.2 ++ joinVals d))
        rw [List.append_assoc]
        exact List.perm_middle
      · show List.Perm
          (joinVals ((if kv.1 = s then (kv.1, kv.2 ++ [a]) else kv) :: dictAppend d s a))
          (a :: (kv.2 ++ joinVals d))
        rw [if_neg h]
        show List.Perm (kv.2 ++ joinVals (dictAppend d s a)) (a :: (kv.2 ++ joinVals d))
        have hk2 : dictHasKey d s = true := by
          have hor : (decide (kv.1 = s) || dictHasKey d s) = true := hk
          simpa [h] using hor
        refine ((ih hnd2.2 hk2).append_left kv.2).trans ?_
        exact List.perm_middle

theorem recollectAccepted_some (existing : List String) (a : α) (j : Option Json)
    (h : recollectAccepted existing (a, j) = true) :
    ∃ s, j = some (.str s) ∧ ((!(s == "")) && existing.contains s) = true := by
  cases j with
  | none => exact absurd h Bool.false_ne_true
  | some v =>
      cases v with
      | str s => exact ⟨s, rfl, h⟩
      | null => exact absurd h Bool.false_ne_true
      | bool b => exact absurd h Bool.false_ne_true
      | num n => exact absurd h Bool.false_ne_true
      | arr xs => exact absurd h Bool.false_ne_true
      | obj ms => exact absurd h Bool.false_ne_true

theorem recollectStep_of_not_accepted (existing : List String) (d : PyDict (List α))
    (a : α) (j : Option Json) :
    recollectAccepted existing (a, j) = false →
    (match j with
     | some (.str s) =>
         if (!(s == "")) && existing.contains s then dictAppend d s a else d
     | _ => d) = d := by
  intro h
  cases j with
  | none => rfl
  | some v =>
      cases v with
      | str s =>
          have h2 : ((!(s == "")) && existing.contains s) = false := h
          show (if (!(s == "")) && existing.contains s then dictAppend d s a else d) = d
          exact if_neg (by rw [h2]; exact Bool.false_ne_true)
      | null => rfl
      | bool b => rfl
      | num n => rfl
      | arr xs => rfl
      | obj ms => rfl

theorem applyRecollect_accounting (existing : List String) :
    ∀ (batch : List α) (assigns : List (Option Json)) (rel : PyDict (List α)),
      (dictKeys rel).Nodup →
      (∀ s, existing.contains s = true → dictHasKey rel s = true) →
      List.Perm (joinVals (applyRecollect rel existing batch assigns))
        (((batch.zip assigns).filter (recollectAccepted existing)).map (·.1) ++
          joinVals rel)
  | [], assigns, rel, _, _ => by simp [applyRecollect]
  | a :: batch, [], rel, _, _ => by simp [applyRecollect, List.zip_nil_right]
  | a :: batch, j :: assigns, rel, hnd, hex => by
      cases hacc : recollectAccepted existing (a, j) with
      | false =>
          have hstep : applyRecollect rel existing (a :: batch) (j :: assigns) =
              applyRecollect rel existing batch assigns := by
            show applyRecollect (match j with
              | some (.str s) =>
                  if (!(s == "")) && existing.contains s then dictAppend rel s a else rel
              | _ => rel) existing batch assigns = _
            rw [recollectStep_of_not_accepted existing rel a j hacc]
          rw [hstep]
          refine (applyRecollect_accounting existing batch assigns rel hnd hex).trans ?_
          rw [show ((a :: batch).zip (j :: assigns)).filter (recollectAccepted existing) =
              (batch.zip assigns).filter (recollectAccepted existing) from by
            rw [List.zip_cons_cons, List.filter_cons]
            simp [hacc]]
      | true =>
          obtain ⟨s, hs, hcond⟩ := recollectAccepted_some existing a j hacc
          have hcont : existing.contains s = true := by
            have h2 := hcond
            simp only [Bool.and_eq_true] at h2
            exact h2.2
          have hstep : applyRecollect rel existing (a :: batch) (j :: assigns) =
              applyRecollect (dictAppend rel s a) existing batch assigns := by
            show applyRecollect (match j with
              | some (.str s) =>
                  if (!(s == "")) && existing.contains s then dictAppend rel s a else rel
              | _ => rel) existing batch assigns = _
            rw [hs]
            show applyRecollect
              (if (!(s == "")) && existing.contains s then dictAppend rel s a else rel)
              existing batch assigns = _
            rw [if_pos hcond]
          rw [hstep]
          have hnd2 : (dictKeys (dictAppend rel s a)).Nodup := by
            rw [dictKeys_dictAppend]; exact hnd
          have hex2 : ∀ s2, existing.contains s2 = true →
              dictHasKey (dictAppend rel s a) s2 = true := by
            intro s2 h2
            rw [dictHasKey_dictAppend]
            exact hex s2 h2
          refine (applyRecollect_accounting existing batch assigns
            (dictAppend rel s a) hnd2 hex2).trans ?_
          refine ((joinVals_dictAppend rel s a hnd (hex s hcont)).append_left _).trans ?_
          rw [show ((a :: batch).zip (j :: assigns)).filter (recollectAccepted existing) =
              (a, j) :: (batch.zip assigns).filter (recollectAccepted existing) from by
            rw [List.zip_cons_cons, List.filter_cons]
            simp [hacc]]
          rw [List.map_cons]
          exact List.perm_middle

theorem buildRenamedGo_vals (ms : List (String × Json)) :
    ∀ (d : PyDict β) (acc : List (Json × β)) (r : List (Json × β)),
      buildRenamedGo ms d acc = some r →
      (acc.map (·.1) ++
        d.map (fun kv => (Json.objGet? ms kv.1).getD (.str kv.1))).Nodup →
      r.map (·.2) = acc.map (·.2) ++ d.map (·.2)
  | [], acc, r, h, _ => by
      have h2 : some acc = some r := h
      rw [← Option.some.inj h2]
      simp
  | kv :: d, acc, r, h, hnodup => by
      have hsome : buildRenamedGo ms (kv :: d) acc =
          (if ((Json.objGet? ms kv.1).getD (.str kv.1)).hashable then
            buildRenamedGo ms d
              (jdictSet acc ((Json.objGet? ms kv.1).getD (.str kv.1)) kv.2)
          else none) := rfl
      rw [hsome] at h
      by_cases hh : ((Json.objGet? ms kv.1).getD (.str kv.1)).hashable
      · rw [if_pos hh] at h
        have hcons : (kv :: d).map (fun kv => (Json.objGet? ms kv.1).getD (.str kv.1)) =
            (Json.objGet? ms kv.1).getD (.str kv.1) ::
              d.map (fun kv => (Json.objGet? ms kv.1).getD (.str kv.1)) := rfl
        rw [hcons] at hnodup
        have hnd3 := List.nodup_append.mp hnodup
        have hfresh : ∀ e ∈ acc, e.1 ≠ (Json.objGet? ms kv.1).getD (.str kv.1) := by
          intro e he heq
          have h1 : (Json.objGet? ms kv.1).getD (.str kv.1) ∈ acc.map (·.1) := by
            rw [← heq]
            exact List.mem_map_of_mem (·.1) he
          have h2 : (Json.objGet? ms kv.1).getD (.str kv.1) ∈
              (Json.objGet? ms kv.1).getD (.str kv.1) ::
                d.map (fun kv => (Json.objGet? ms kv.1).getD (.str kv.1)) :=
            List.mem_cons_self _ _
          exact hnd3.2.2 h1 h2
        rw [jdictSet_fresh acc _ kv.2 hfresh] at h
        have hnodup2 : ((acc ++ [((Json.objGet? ms kv.1).getD (.str kv.1), kv.2)]).map (·.1) ++
            d.map (fun kv => (Json.objGet? ms kv.1).getD (.str kv.1))).Nodup := by
          rw [List.map_append]
          rw [List.append_assoc]
          simpa using hnodup
        have hres := buildRenamedGo_vals ms d _ r h hnodup2
        rw [hres]
        simp
      · rw [if_neg hh] at h
        cases h

theorem rename_values_preserved (d : PyDict (List α)) (resp : CallResult)
    (hinj : ∀ t ms, resp = .success t → decode_json t = some (.obj ms) →
      ((nameMappingOf ms d).map (·.2)).Nodup) :
    (rename_categories_batch d resp).map (·.2) = d.map (·.2) := by
  have hsk : (stringKeyed d : List (Json × List α)).map (·.2) = d.map (·.2) := by
    unfold stringKeyed
    rw [List.map_map]
    rfl
  cases resp with
  | failure => exact hsk
  | success t =>
      show List.map (·.2) ((match decode_json t with
        | some (Json.obj ms) =>
            (match buildRenamed ms d with
             | some r => r
             | none => stringKeyed d)
        | _ => stringKeyed d : List (Json × List α))) = d.map (·.2)
      cases hdec : decode_json t with
      | none => exact hsk
      | some v =>
          cases v with
          | obj ms =>
              show List.map (·.2) ((match buildRenamed ms d with
                | some r => r
                | none => stringKeyed d : List (Json × List α))) = d.map (·.2)
              cases hb : buildRenamed ms d with
              | none => exact hsk
              | some r =>
                  show r.map (·.2) = d.map (·.2)
                  have hnodup : (([] : List (Json × List α)).map (·.1) ++
                      d.map (fun kv => (Json.objGet? ms kv.1).getD (.str kv.1))).Nodup := by
                    have hr := hinj t ms rfl hdec
                    have hmm : (nameMappingOf ms d).map (·.2) =
                        d.map (fun kv => (Json.objGet? ms kv.1).getD (.str kv.1)) := by
                      unfold nameMappingOf
                      rw [List.map_map]
                      rfl
                    rw [hmm] at hr
                    simpa using hr
                  have hres := buildRenamedGo_vals ms d [] r hb hnodup
                  rw [hres]
                  rfl
          | null => exact hsk
          | bool b => exact hsk
          | num n => exact hsk
          | str s => exact hsk
          | arr xs => exact hsk

/-- C2 (amended): the per-stage accounting.  The size filter's surviving
articles plus the articles its removed names recover are a permutation of the
input's articles; relevance validation partitions the input entries into kept
entries and entries whose names fill the removed list; per-batch orphan
recollection grows the surviving mapping by exactly the accepted orphans,
discarding the rest; and the renamer preserves every article list whenever the
realized new names are pairwise distinct — the proved counterexample shows a
rename collision silently loses the overwritten category's articles, so the
rename conjunct's distinctness hypothesis cannot be dropped. -/
theorem stage_accounting (α β : Type) (oracle : Oracle) :
    (∀ d : PyDict (List α), (dictKeys d).Nodup →
      List.Perm (joinVals (sizeFilterStage d).1 ++
        removedArticlesOf d (sizeFilterStage d).2) (joinVals d)) ∧
    (∀ (fuel : Nat) (d : PyDict (List β)) (k : Nat), d.length ≤ fuel →
      ∃ dropped, List.Perm ((validateGo oracle fuel d k).1 ++ dropped) d ∧
        (validateGo oracle fuel d k).2.1 = dropped.map (·.1)) ∧
    (∀ (rel : PyDict (List α)) (existing : List String) (batch : List α)
        (assigns : List (Option Json)),
      (dictKeys rel).Nodup →
      (∀ s, existing.contains s = true → dictHasKey rel s = true) →
      List.Perm (joinVals (applyRecollect rel existing batch assigns))
        (((batch.zip assigns).filter (recollectAccepted existing)).map (·.1) ++
          joinVals rel)) ∧
    (∀ (d : PyDict (List α)) (resp : CallResult),
      (∀ t ms, resp = .success t → decode_json t = some (.obj ms) →
        ((nameMappingOf ms d).map (·.2)).Nodup) →
      (rename_categories_batch d resp).map (·.2) = d.map (·.2)) :=
  ⟨fun d hnd => sizeFilterStage_accounting d hnd,
   fun fuel d k hlen => validateGo_accounting oracle fuel d k hlen,
   fun rel existing batch assigns hnd hex =>
     applyRecollect_accounting existing batch assigns rel hnd hex,
   fun d resp hinj => rename_values_preserved d resp hinj⟩

/-- Witness for the stage accounting at a concrete mapping: the size filter
drops the singleton category "B" into the removal accounting, and the
identity rename keeps both article lists. -/
theorem stage_accounting_witness :
    List.Perm
      (joinVals (sizeFilterStage [("A", [0, 1]), ("B", [2])]).1 ++
        removedArticlesOf [("A", [0, 1]), ("B", [2])]
          (sizeFilterStage [("A", [0, 1]), ("B", [2])]).2)
      (joinVals [("A", [0, 1]), ("B", [2])]) ∧
    (rename_categories_batch [("A", [0, 1]), ("B", [2])]
        respRenameIdentity).map (·.2) =
      [("A", [0, 1]), ("B", [2])].map (·.2) := by
  constructor
  · exact (stage_accounting Nat Nat oracleAssignWitness).1
      [("A", [0, 1]), ("B", [2])] (by decide)
  · apply (stage_accounting Nat Nat oracleAssignWitness).2.2.2
    intro t ms ht hms
    have ht2 : CallResult.success "\x7b\"A\": \"A\"\x7d" = CallResult.success t := ht
    obtain rfl := (CallResult.success.inj ht2).symm
    have hd : decode_json "\x7b\"A\": \"A\"\x7d" =
        some (Json.obj [("A", Json.str "A")]) := rfl
    rw [hd] at hms
    have hms2 : Json.obj [("A", Json.str "A")] = Json.obj ms := Option.some.inj hms
    have hms3 : [("A", Json.str "A")] = ms := by injection hms2
    obtain rfl := hms3.symm
    decide

/-! ### Lemmas for the decode round-trip (C5): digits and integer tokens -/

theorem digit_isDigit : ∀ m : Nat, m < 10 → isDigitC (Char.ofNat ('0'.toNat + m)) = true := by
  decide

theorem digit_toNat : ∀ m : Nat, m < 10 → (Char.ofNat ('0'.toNat + m)).toNat = '0'.toNat + m := by
  decide

theorem natDigitsGo_shape : ∀ (fuel n : Nat) (acc : List Char),
    (∀ c ∈ acc, ∃ m, m < 10 ∧ c = Char.ofNat ('0'.toNat + m)) →
    ∀ c ∈ natDigitsGo fuel n acc, ∃ m, m < 10 ∧ c = Char.ofNat ('0'.toNat + m)
  | 0, n, acc, hacc, c, hc => by
      rcases List.mem_cons.mp hc with rfl | hm
      · exact ⟨n % 10, by omega, rfl⟩
      · exact hacc c hm
  | fuel + 1, n, acc, hacc, c, hc => by
      have hacc2 : ∀ c ∈ (Char.ofNat ('0'.toNat + n % 10) :: acc),
          ∃ m, m < 10 ∧ c = Char.ofNat ('0'.toNat + m) := by
        intro c2 hc2
        rcases List.mem_cons.mp hc2 with rfl | hm
        · exact ⟨n % 10, by omega, rfl⟩
        · exact hacc c2 hm
      by_cases h : n < 10
      · have hc2 : c ∈ (Char.ofNat ('0'.toNat + n % 10) :: acc) := by
          have : natDigitsGo (fuel + 1) n acc =
              Char.ofNat ('0'.toNat + n % 10) :: acc := by
            show (if n < 10 then _ else _) = _
            rw [if_pos h]
          rw [this] at hc
          exact hc
        exact hacc2 c hc2
      · have : natDigitsGo (fuel + 1) n acc =
            natDigitsGo fuel (n / 10) (Char.ofNat ('0'.toNat + n % 10) :: acc) := by
          show (if n < 10 then _ else _) = _
          rw [if_neg h]
        rw [this] at hc
        exact natDigitsGo_shape fuel (n / 10) _ hacc2 c hc

theorem natDigitsGo_ne_nil : ∀ (fuel n : Nat) (acc : List Char),
    natDigitsGo fuel n acc ≠ []
  | 0, n, acc => by
      show Char.ofNat ('0'.toNat + n % 10) :: acc ≠ []
      simp
  | fuel + 1, n, acc => by
      show (if n < 10 then Char.ofNat ('0'.toNat + n % 10) :: acc
        else natDigitsGo fuel (n / 10) (Char.ofNat ('0'.toNat + n % 10) :: acc)) ≠ []
      by_cases h : n < 10
      · rw [if_pos h]; simp
      · rw [if_neg h]; exact natDigitsGo_ne_nil fuel (n / 10) _

theorem natDigitsGo_acc : ∀ (fuel n : Nat) (acc : List Char),
    natDigitsGo fuel n acc = natDigitsGo fuel n [] ++ acc
  | 0, n, acc => rfl
  | fuel + 1, n, acc => by
      show (if n < 10 then Char.ofNat ('0'.toNat + n % 10) :: acc
          else natDigitsGo fuel (n / 10) (Char.ofNat ('0'.toNat + n % 10) :: acc)) =
        (if n < 10 then Char.ofNat ('0'.toNat + n % 10) :: ([] : List Char)
          else natDigitsGo fuel (n / 10) [Char.ofNat ('0'.toNat + n % 10)]) ++ acc
      by_cases h : n < 10
      · rw [if_pos h, if_pos h]
        rfl
      · rw [if_neg h, if_neg h]
        rw [natDigitsGo_acc fuel (n / 10) (Char.ofNat ('0'.toNat + n % 10) :: acc),
          natDigitsGo_acc fuel (n / 10) [Char.ofNat ('0'.toNat + n % 10)]]
        simp

theorem natDigitsGo_fuel (n : Nat) : ∀ (fuel fuel2 : Nat), n ≤ fuel → n ≤ fuel2 →
    natDigitsGo fuel n [] = natDigitsGo fuel2 n [] := by
  by_cases h : n < 10
  · intro fuel fuel2 _ _
    have hone : ∀ f : Nat, natDigitsGo f n [] = [Char.ofNat ('0'.toNat + n % 10)] := by
      intro f
      cases f with
      | zero => rfl
      | succ g =>
          show (if n < 10 then _ else _) = _
          rw [if_pos h]
    rw [hone fuel, hone fuel2]
  · intro fuel fuel2 hf hf2
    cases fuel with
    | zero => omega
    | succ f =>
        cases fuel2 with
        | zero => omega
        | succ f2 =>
            show (if n < 10 then _ else _) = (if n < 10 then _ else _)
            rw [if_neg h, if_neg h]
            rw [natDigitsGo_acc f (n / 10) _, natDigitsGo_acc f2 (n / 10) _]
            rw [natDigitsGo_fuel (n / 10) f f2 (by omega) (by omega)]
termination_by n

theorem digitsVal_append_one (l : List Char) (c : Char) :
    digitsVal (l ++ [c]) = digitsVal l * 10 + (c.toNat - '0'.toNat) := by
  unfold digitsVal
  rw [List.foldl_append]
  rfl

theorem natChars_small (n : Nat) (h : n < 10) :
    natChars n = [Char.ofNat ('0'.toNat + n % 10)] := by
  unfold natChars
  cases n with
  | zero => rfl
  | succ m =>
      show (if m + 1 < 10 then Char.ofNat ('0'.toNat + (m + 1) % 10) :: ([] : List Char)
        else natDigitsGo m ((m + 1) / 10) [Char.ofNat ('0'.toNat + (m + 1) % 10)]) = _
      rw [if_pos h]

theorem natChars_large (n : Nat) (h : ¬n < 10) :
    natChars n = natChars (n / 10) ++ [Char.ofNat ('0'.toNat + n % 10)] := by
  cases n with
  | zero => omega
  | succ m =>
      show (if m + 1 < 10 then Char.ofNat ('0'.toNat + (m + 1) % 10) :: ([] : List Char)
        else natDigitsGo m ((m + 1) / 10) [Char.ofNat ('0'.toNat + (m + 1) % 10)]) = _
      rw [if_neg h]
      rw [natDigitsGo_acc]
      rw [show natDigitsGo m ((m + 1) / 10) [] = natChars ((m + 1) / 10) from
        natDigitsGo_fuel ((m + 1) / 10) m ((m + 1) / 10) (by omega) (le_refl _)]

theorem digitsVal_natChars (n : Nat) : digitsVal (natChars n) = n := by
  by_cases h : n < 10
  · rw [natChars_small n h]
    rw [show digitsVal [Char.ofNat ('0'.toNat + n % 10)] =
      0 * 10 + ((Char.ofNat ('0'.toNat + n % 10)).toNat - '0'.toNat) from rfl]
    rw [digit_toNat (n % 10) (by omega)]
    omega
  · rw [natChars_large n h, digitsVal_append_one, digitsVal_natChars (n / 10)]
    rw [digit_toNat (n % 10) (by omega)]
    omega
termination_by n
decreasing_by omega

theorem natChars_shape (n : Nat) :
    ∀ c ∈ natChars n, ∃ m, m < 10 ∧ c = Char.ofNat ('0'.toNat + m) :=
  natDigitsGo_shape n n [] (fun c hc => absurd hc (List.not_mem_nil c))

theorem shape_isDigit (c : Char) (h : ∃ m, m < 10 ∧ c = Char.ofNat ('0'.toNat + m)) :
    isDigitC c = true := by
  obtain ⟨m, hm, rfl⟩ := h
  exact digit_isDigit m hm

theorem digit_ne_minus : ∀ m : Nat, m < 10 → Char.ofNat ('0'.toNat + m) ≠ '-' := by
  decide

theorem takeDigitsL_split : ∀ (ds rest : List Char),
    (∀ c ∈ ds, isDigitC c = true) → numDelim rest = true →
    takeDigitsL (ds ++ rest) = (ds, rest)
  | [], rest, _, hnd => by
      cases rest with
      | nil => rfl
      | cons c t =>
          have hc : isDigitC c = false := by
            have h2 : (!(isDigitC c || c = '.' || c = 'e' || c = 'E')) = true := hnd
            simp only [Bool.not_eq_true', Bool.or_eq_false_iff] at h2
            exact h2.1.1.1
          show takeDigitsL (c :: t) = ([], c :: t)
          simp only [takeDigitsL, hc]
          rfl
  | d :: ds, rest, hds, hnd => by
      have hd : isDigitC d = true := hds d (by simp)
      show takeDigitsL (d :: (ds ++ rest)) = (d :: ds, rest)
      simp only [takeDigitsL, hd]
      rw [takeDigitsL_split ds rest (fun c hc => hds c (by simp [hc])) hnd]
      simp

theorem parseIntTok_via (cs rest : List Char) (d : Char) (ds : List Char)
    (hm : ∀ r, cs ≠ '-' :: r)
    (htake : takeDigitsL cs = (d :: ds, rest))
    (hnd : numDelim rest = true) :
    parseIntTok cs = some (((digitsVal (d :: ds) : Nat) : Int), rest) := by
  unfold parseIntTok
  split
  rename_i neg cs1 heq
  split at heq
  · rename_i r
    exact absurd rfl (hm r)
  · rw [Prod.mk.injEq] at heq
    obtain ⟨ha, hb⟩ := heq
    subst ha
    subst hb
    rw [htake]
    cases rest with
    | nil => simp
    | cons c t =>
        have h2 : (!(isDigitC c || c = '.' || c = 'e' || c = 'E')) = true := hnd
        simp only [Bool.not_eq_true', Bool.or_eq_false_iff] at h2
        show (if (!(decide (c = '.') || decide (c = 'e') || decide (c = 'E'))) = true then
            some ((if (false : Bool) = true then -((digitsVal (d :: ds) : Nat) : Int)
              else ((digitsVal (d :: ds) : Nat) : Int)), c :: t)
          else none) = some (((digitsVal (d :: ds) : Nat) : Int), c :: t)
        simp only [h2.1.1.2, h2.1.2, h2.2]
        simp

theorem parseIntTok_minus (cs rest : List Char) (d : Char) (ds : List Char)
    (htake : takeDigitsL cs = (d :: ds, rest))
    (hnd : numDelim rest = true) :
    parseIntTok ('-' :: cs) = some (-((digitsVal (d :: ds) : Nat) : Int), rest) := by
  unfold parseIntTok
  split
  rename_i neg cs1 heq
  have heq2 : ((true, cs) : Bool × List Char) = (neg, cs1) := heq
  rw [Prod.mk.injEq] at heq2
  obtain ⟨ha, hb⟩ := heq2
  subst ha
  subst hb
  rw [htake]
  cases rest with
  | nil => simp
  | cons c t =>
      have h2 : (!(isDigitC c || c = '.' || c = 'e' || c = 'E')) = true := hnd
      simp only [Bool.not_eq_true', Bool.or_eq_false_iff] at h2
      show (if (!(decide (c = '.') || decide (c = 'e') || decide (c = 'E'))) = true then
          some ((if (true : Bool) = true then -((digitsVal (d :: ds) : Nat) : Int)
            else ((digitsVal (d :: ds) : Nat) : Int)), c :: t)
        else none) = some (-((digitsVal (d :: ds) : Nat) : Int), c :: t)
      simp only [h2.1.1.2, h2.1.2, h2.2]
      simp

theorem parseIntTok_natChars (k : Nat) (rest : List Char) (hnd : numDelim rest = true) :
    parseIntTok (natChars k ++ rest) = some ((k : Int), rest) := by
  obtain ⟨c, t, heq⟩ := List.exists_cons_of_ne_nil
    (show natChars k ≠ [] from natDigitsGo_ne_nil k k [])
  have hdigits : ∀ c2 ∈ (c :: t), isDigitC c2 = true := by
    intro c2 hc2
    exact shape_isDigit c2 (natChars_shape k c2 (by rw [heq]; exact hc2))
  have htake : takeDigitsL ((c :: t) ++ rest) = (c :: t, rest) :=
    takeDigitsL_split (c :: t) rest hdigits hnd
  have hm : ∀ r, (c :: t) ++ rest ≠ '-' :: r := by
    intro r hr
    rw [List.cons_append, List.cons.injEq] at hr
    obtain ⟨m, hm10, hcm⟩ := natChars_shape k c (by rw [heq]; simp)
    exact digit_ne_minus m hm10 (hcm ▸ hr.1)
  rw [heq]
  rw [parseIntTok_via ((c :: t) ++ rest) rest c t hm htake hnd]
  rw [show digitsVal (c :: t) = digitsVal (natChars k) from by rw [heq]]
  rw [digitsVal_natChars]

theorem parseIntTok_intChars (n : Int) (rest : List Char) (hnd : numDelim rest = true) :
    parseIntTok (intCharsL n ++ rest) = some (n, rest) := by
  by_cases hneg : n < 0
  · have hic : intCharsL n = '-' :: natChars n.natAbs := by
      unfold intCharsL
      rw [if_pos hneg]
      rfl
    rw [hic]
    obtain ⟨c, t, heq⟩ := List.exists_cons_of_ne_nil
      (show natChars n.natAbs ≠ [] from natDigitsGo_ne_nil _ _ [])
    have hdigits : ∀ c2 ∈ (c :: t), isDigitC c2 = true := by
      intro c2 hc2
      exact shape_isDigit c2 (natChars_shape n.natAbs c2 (by rw [heq]; exact hc2))
    have htake : takeDigitsL ((c :: t) ++ rest) = (c :: t, rest) :=
      takeDigitsL_split (c :: t) rest hdigits hnd
    rw [show ('-' :: natChars n.natAbs) ++ rest = '-' :: ((c :: t) ++ rest) from by
      rw [heq]; rfl]
    rw [parseIntTok_minus ((c :: t) ++ rest) rest c t htake hnd]
    rw [show digitsVal (c :: t) = digitsVal (natChars n.natAbs) from by rw [heq]]
    rw [digitsVal_natChars]
    rw [Int.ofNat_natAbs_of_nonpos (by omega)]
    simp
  · have hic : intCharsL n = natChars n.natAbs := by
      unfold intCharsL
      rw [if_neg hneg]
      rfl
    rw [hic, parseIntTok_natChars n.natAbs rest hnd]
    rw [Int.natAbs_of_nonneg (by omega)]

/-! ### String bodies: the parser inverts the serializer's escaping -/

theorem escChar_step : ∀ m : Nat, m < 0x20 → ∀ acc T : List Char,
    parseStrBody acc (escChar (Char.ofNat m) ++ T) =
      parseStrBody (Char.ofNat m :: acc) T := by
  intro m hm acc T
  interval_cases m <;> rfl

theorem escChar_plain (c : Char) (h1 : c ≠ '"') (h2 : c ≠ '\\')
    (h3 : ¬(c.toNat < 0x20)) : escChar c = [c] := by
  unfold escChar
  rw [if_neg h1, if_neg h2,
    if_neg (fun hh => h3 (by rw [hh]; decide)),
    if_neg (fun hh => h3 (by rw [hh]; decide)),
    if_neg (fun hh => h3 (by rw [hh]; decide)),
    if_neg (fun hh => h3 (by rw [hh]; decide)),
    if_neg (fun hh => h3 (by rw [hh]; decide)),
    if_neg h3]

theorem parseStrBody_plain (acc : List Char) (c : Char) (rest : List Char)
    (h1 : c ≠ '"') (h2 : c ≠ '\\') (h3 : ¬(c.toNat < 0x20)) :
    parseStrBody acc (c :: rest) = parseStrBody (c :: acc) rest := by
  rw [parseStrBody.eq_def]
  split
  · rename_i heq
    rw [List.cons.injEq] at heq
    exact absurd heq.1 h1
  · rename_i heq
    rw [List.cons.injEq] at heq
    exact absurd heq.1 h2
  · rename_i heq
    rw [List.cons.injEq] at heq
    exact absurd heq.1 h2
  · rename_i c2 r2 heq
    rw [List.cons.injEq] at heq
    obtain ⟨ha, hb⟩ := heq
    subst ha
    subst hb
    rw [if_neg h3]
  · rename_i heq
    cases heq

theorem parseStrBody_escs : ∀ (l acc rest : List Char),
    parseStrBody acc (l.flatMap escChar ++ ('"' :: rest)) =
      some (⟨acc.reverse ++ l⟩, rest)
  | [], acc, rest => by
      show parseStrBody acc ('"' :: rest) = some (⟨acc.reverse ++ []⟩, rest)
      rw [List.append_nil]
      rfl
  | c :: l, acc, rest => by
      rw [show (c :: l).flatMap escChar = escChar c ++ l.flatMap escChar from rfl]
      rw [List.append_assoc]
      have hstep : parseStrBody acc (escChar c ++ (l.flatMap escChar ++ ('"' :: rest))) =
          parseStrBody (c :: acc) (l.flatMap escChar ++ ('"' :: rest)) := by
        by_cases h1 : c = '"'
        · subst h1; rfl
        by_cases h2 : c = '\\'
        · subst h2; rfl
        by_cases h3 : c.toNat < 0x20
        · have hc : c = Char.ofNat c.toNat := (Char.ofNat_toNat c).symm
          conv_lhs => rw [hc]
          conv_rhs => rw [hc]
          exact escChar_step c.toNat h3 acc _
        · rw [escChar_plain c h1 h2 h3]
          rw [show ([c] : List Char) ++ (l.flatMap escChar ++ ('"' :: rest)) =
            c :: (l.flatMap escChar ++ ('"' :: rest)) from rfl]
          exact parseStrBody_plain acc c _ h1 h2 h3
      rw [hstep, parseStrBody_escs l (c :: acc) rest]
      simp [List.reverse_cons, List.append_assoc]

/-! ### Heads of serialized values and whitespace facts -/

theorem digit_misc : ∀ m : Nat, m < 10 →
    (isJsonWs (Char.ofNat ('0'.toNat + m)) = false ∧
     Char.ofNat ('0'.toNat + m) ≠ 'n' ∧ Char.ofNat ('0'.toNat + m) ≠ 't' ∧
     Char.ofNat ('0'.toNat + m) ≠ 'f' ∧ Char.ofNat ('0'.toNat + m) ≠ '"' ∧
     Char.ofNat ('0'.toNat + m) ≠ '[' ∧ Char.ofNat ('0'.toNat + m) ≠ '\x7b' ∧
     Char.ofNat ('0'.toNat + m) ≠ ']' ∧ isPyWs (Char.ofNat ('0'.toNat + m)) = false) := by
  decide

theorem skipJWs_not_ws (c : Char) (t : List Char) (h : isJsonWs c = false) :
    skipJWs (c :: t) = c :: t := by
  show (if isJsonWs c then skipJWs t else c :: t) = c :: t
  rw [h]
  simp

theorem dumpsL_head_key : ∀ v : Json, ∃ c t, dumpsL v = c :: t ∧
    isJsonWs c = false ∧ c ≠ ']' ∧ isPyWs c = false
  | .null => ⟨'n', _, rfl, by decide, by decide, by decide⟩
  | .bool true => ⟨'t', _, rfl, by decide, by decide, by decide⟩
  | .bool false => ⟨'f', _, rfl, by decide, by decide, by decide⟩
  | .str s => ⟨'"', _, rfl, by decide, by decide, by decide⟩
  | .arr [] => ⟨'[', _, rfl, by decide, by decide, by decide⟩
  | .arr (x :: xs) => ⟨'[', _, rfl, by decide, by decide, by decide⟩
  | .obj [] => ⟨'\x7b', _, rfl, by decide, by decide, by decide⟩
  | .obj (kv :: ms) => ⟨'\x7b', _, rfl, by decide, by decide, by decide⟩
  | .num n => by
      by_cases hneg : n < 0
      · refine ⟨'-', natChars n.natAbs, ?_, by decide, by decide, by decide⟩
        show intCharsL n = _
        unfold intCharsL
        rw [if_pos hneg]
        rfl
      · obtain ⟨c, t, heq⟩ := List.exists_cons_of_ne_nil
          (show natChars n.natAbs ≠ [] from natDigitsGo_ne_nil _ _ [])
        obtain ⟨m, hm10, hcm⟩ := natChars_shape n.natAbs c (by rw [heq]; simp)
        refine ⟨c, t, ?_, ?_, ?_, ?_⟩
        · show intCharsL n = _
          unfold intCharsL
          rw [if_neg hneg, heq]
          rfl
        · rw [hcm]; exact (digit_misc m hm10).1
        · rw [hcm]; exact (digit_misc m hm10).2.2.2.2.2.2.2.1
        · rw [hcm]; exact (digit_misc m hm10).2.2.2.2.2.2.2.2

theorem numDelim_more_items (xs : List Json) (rest : List Char) :
    numDelim (dumpsMoreItems xs ++ (']' :: rest)) = true := by
  cases xs <;> rfl

theorem numDelim_more_fields (ms : List (String × Json)) (rest : List Char) :
    numDelim (dumpsMoreFields ms ++ ('\x7d' :: rest)) = true := by
  cases ms <;> rfl

theorem parseVal_ws (fuel : Nat) (cs : List Char) :
    parseVal (fuel + 1) (' ' :: cs) = parseVal (fuel + 1) cs := rfl

theorem parseItems_ws (fuel : Nat) (cs : List Char) :
    parseItems (fuel + 1) (' ' :: cs) = parseItems (fuel + 1) cs := by
  cases fuel <;> rfl

theorem parseFields_ws (fuel : Nat) (cs : List Char) :
    parseFields (fuel + 1) (' ' :: cs) = parseFields (fuel + 1) cs := rfl

theorem parseVal_arr_cont (fuel : Nat) (r2 : List Char) :
    (∀ rr, r2 ≠ ']' :: rr) → skipJWs r2 = r2 →
    parseVal (fuel + 1) ('[' :: r2) =
      (match parseItems fuel r2 with
       | some (xs, r3) => some (Json.arr xs, r3)
       | none => none) := by
  intro hne hws
  show (match skipJWs r2 with
        | ']' :: r3 => some (Json.arr [], r3)
        | r3 =>
          match parseItems fuel r3 with
          | some (xs, r4) => some (Json.arr xs, r4)
          | none => none) = _
  rw [hws]
  split
  · rename_i rr
    exact absurd rfl (hne rr)
  · rfl

theorem parseVal_other_cont (fuel : Nat) (c : Char) (r : List Char) :
    isJsonWs c = false → c ≠ 'n' → c ≠ 't' → c ≠ 'f' → c ≠ '"' →
    c ≠ '[' → c ≠ '\x7b' →
    parseVal (fuel + 1) (c :: r) =
      (if c = '-' || isDigitC c then
        match parseIntTok (c :: r) with
        | some (n, r2) => some (Json.num n, r2)
        | none => none
      else none) := by
  intro hws h1 h2 h3 h4 h5 h6
  rw [parseVal.eq_def]
  show (match skipJWs (c :: r) with
        | 'n' :: 'u' :: 'l' :: 'l' :: r => some (Json.null, r)
        | 't' :: 'r' :: 'u' :: 'e' :: r => some (Json.bool true, r)
        | 'f' :: 'a' :: 'l' :: 's' :: 'e' :: r => some (Json.bool false, r)
        | '"' :: r =>
            (match parseStrBody [] r with
             | some (s, r2) => some (Json.str s, r2)
             | none => none)
        | '[' :: r =>
            (match skipJWs r with
             | ']' :: r2 => some (Json.arr [], r2)
             | r2 =>
               match parseItems fuel r2 with
               | some (xs, r3) => some (Json.arr xs, r3)
               | none => none)
        | '\x7b' :: r =>
            (match skipJWs r with
             | '\x7d' :: r2 => some (Json.obj [], r2)
             | r2 =>
               match parseFields fuel r2 with
               | some (ms, r3) => some (Json.obj ms, r3)
               | none => none)
        | c :: r =>
            if c = '-' || isDigitC c then
              match parseIntTok (c :: r) with
              | some (n, r2) => some (Json.num n, r2)
              | none => none
            else none
        | [] => none) = _
  rw [skipJWs_not_ws c r hws]
  split
  · rename_i heq
    rw [List.cons.injEq] at heq
    exact absurd heq.1 h1
  · rename_i heq
    rw [List.cons.injEq] at heq
    exact absurd heq.1 h2
  · rename_i heq
    rw [List.cons.injEq] at heq
    exact absurd heq.1 h3
  · rename_i heq
    rw [List.cons.injEq] at heq
    exact absurd heq.1 h4
  · rename_i heq
    rw [List.cons.injEq] at heq
    exact absurd heq.1 h5
  · rename_i heq
    rw [List.cons.injEq] at heq
    exact absurd heq.1 h6
  · rename_i c2 r2 heq
    rw [List.cons.injEq] at heq
    obtain ⟨ha, hb⟩ := heq
    subst ha
    subst hb
    rfl
  · rename_i heq
    cases heq

/-! ### The parser inverts the serializer -/

mutual

theorem parseVal_dumps : ∀ (fuel : Nat) (v : Json) (rest : List Char),
    (dumpsL v).length < fuel → numDelim rest = true →
    parseVal fuel (dumpsL v ++ rest) = some (v, rest)
  | 0, v, rest => fun hlen _ => absurd hlen (by omega)
  | fuel + 1, .null, rest => fun _ _ => rfl
  | fuel + 1, .bool true, rest => fun _ _ => rfl
  | fuel + 1, .bool false, rest => fun _ _ => rfl
  | fuel + 1, .num n, rest => fun hlen hnd => by
      by_cases hneg : n < 0
      · have hs : dumpsL (Json.num n) ++ rest = '-' :: (natChars n.natAbs ++ rest) := by
          rw [show dumpsL (Json.num n) = intCharsL n from rfl]
          unfold intCharsL
          rw [if_pos hneg]
          simp
        rw [hs]
        show (match parseIntTok ('-' :: (natChars n.natAbs ++ rest)) with
          | some (n2, r2) => some (Json.num n2, r2)
          | none => none) = some (Json.num n, rest)
        have hit := parseIntTok_intChars n rest hnd
        rw [show intCharsL n ++ rest = '-' :: (natChars n.natAbs ++ rest) from by
          unfold intCharsL; rw [if_pos hneg]; simp] at hit
        rw [hit]
      · obtain ⟨c, t, heq⟩ := List.exists_cons_of_ne_nil
          (show natChars n.natAbs ≠ [] from natDigitsGo_ne_nil _ _ [])
        obtain ⟨m, hm10, hcm⟩ := natChars_shape n.natAbs c (by rw [heq]; simp)
        have hmisc := digit_misc m hm10
        have hs : dumpsL (Json.num n) ++ rest = c :: (t ++ rest) := by
          rw [show dumpsL (Json.num n) = intCharsL n from rfl]
          unfold intCharsL
          rw [if_neg hneg, heq]
          simp
        rw [hs]
        rw [parseVal_other_cont fuel c (t ++ rest)
          (by rw [hcm]; exact hmisc.1) (by rw [hcm]; exact hmisc.2.1)
          (by rw [hcm]; exact hmisc.2.2.1) (by rw [hcm]; exact hmisc.2.2.2.1)
          (by rw [hcm]; exact hmisc.2.2.2.2.1) (by rw [hcm]; exact hmisc.2.2.2.2.2.1)
          (by rw [hcm]; exact hmisc.2.2.2.2.2.2.1)]
        rw [if_pos (show (decide (c = '-') || isDigitC c) = true from by
          rw [shape_isDigit c ⟨m, hm10, hcm⟩]; simp)]
        have hit := parseIntTok_natChars n.natAbs rest hnd
        rw [heq, List.cons_append] at hit
        rw [hit]
        rw [Int.natAbs_of_nonneg (by omega)]
  | fuel + 1, .str s, rest => fun _ _ => by
      have hs : dumpsL (Json.str s) ++ rest =
          '"' :: (s.data.flatMap escChar ++ ('"' :: rest)) := by
        rw [show dumpsL (Json.str s) = '"' :: (escStrL s ++ ['"']) from rfl]
        rw [List.cons_append, List.append_assoc]
        rfl
      rw [hs]
      show (match parseStrBody [] (s.data.flatMap escChar ++ ('"' :: rest)) with
        | some (s2, r2) => some (Json.str s2, r2)
        | none => none) = some (Json.str s, rest)
      rw [parseStrBody_escs s.data [] rest]
      simp
  | fuel + 1, .arr [], rest => fun _ _ => rfl
  | fuel + 1, .arr (x :: xs), rest => fun hlen _ => by
      have hT : dumpsL (Json.arr (x :: xs)) ++ rest =
          '[' :: (dumpsL x ++ (dumpsMoreItems xs ++ (']' :: rest))) := by
        rw [show dumpsL (Json.arr (x :: xs)) =
          '[' :: (dumpsL x ++ (dumpsMoreItems xs ++ [']'])) from rfl]
        simp [List.append_assoc]
      rw [hT]
      obtain ⟨c, t, hct, hcw, hcne, -⟩ := dumpsL_head_key x
      rw [parseVal_arr_cont fuel _
        (by
          intro rr hr
          rw [hct, List.cons_append, List.cons.injEq] at hr
          exact hcne hr.1)
        (by rw [hct, List.cons_append]; exact skipJWs_not_ws c _ hcw)]
      have hlen2 : (dumpsL (Json.arr (x :: xs))).length =
          1 + ((dumpsL x).length + ((dumpsMoreItems xs).length + 1)) := by
        rw [show dumpsL (Json.arr (x :: xs)) =
          '[' :: (dumpsL x ++ (dumpsMoreItems xs ++ [']'])) from rfl]
        simp [List.length_append]
        omega
      rw [parseItems_dumps fuel x xs rest (by omega)]
  | fuel + 1, .obj [], rest => fun _ _ => rfl
  | fuel + 1, .obj (kv :: ms), rest => fun hlen _ => by
      have hT : dumpsL (Json.obj (kv :: ms)) ++ rest =
          '\x7b' :: (dumpsField kv ++ (dumpsMoreFields ms ++ ('\x7d' :: rest))) := by
        rw [show dumpsL (Json.obj (kv :: ms)) =
          '\x7b' :: (dumpsField kv ++ (dumpsMoreFields ms ++ ['\x7d'])) from rfl]
        simp [List.append_assoc]
      rw [hT]
      have hkey : dumpsField kv ++ (dumpsMoreFields ms ++ ('\x7d' :: rest)) =
          '"' :: ((escStrL kv.1 ++ ('"' :: ':' :: ' ' :: dumpsL kv.2)) ++
            (dumpsMoreFields ms ++ ('\x7d' :: rest))) := by
        rw [show dumpsField kv =
          '"' :: (escStrL kv.1 ++ ('"' :: ':' :: ' ' :: dumpsL kv.2)) from by
            obtain ⟨k, v⟩ := kv; rfl]
        rfl
      rw [hkey]
      show (match parseFields fuel ('"' :: ((escStrL kv.1 ++
          ('"' :: ':' :: ' ' :: dumpsL kv.2)) ++
          (dumpsMoreFields ms ++ ('\x7d' :: rest)))) with
        | some (ms2, r3) => some (Json.obj ms2, r3)
        | none => none) = some (Json.obj (kv :: ms), rest)
      rw [← hkey]
      have hlen2 : (dumpsL (Json.obj (kv :: ms))).length =
          1 + ((dumpsField kv).length + ((dumpsMoreFields ms).length + 1)) := by
        rw [show dumpsL (Json.obj (kv :: ms)) =
          '\x7b' :: (dumpsField kv ++ (dumpsMoreFields ms ++ ['\x7d'])) from rfl]
        simp [List.length_append]
        omega
      rw [parseFields_dumps fuel kv ms rest (by omega)]

theorem parseItems_dumps : ∀ (fuel : Nat) (x : Json) (xs : List Json) (rest : List Char),
    (dumpsL x).length + (dumpsMoreItems xs).length + 1 < fuel →
    parseItems fuel (dumpsL x ++ (dumpsMoreItems xs ++ (']' :: rest))) =
      some (x :: xs, rest)
  | 0, x, xs, rest => fun hlen => absurd hlen (by omega)
  | fuel + 1, x, xs, rest => fun hlen => by
      show (match parseVal fuel (dumpsL x ++ (dumpsMoreItems xs ++ (']' :: rest))) with
        | none => none
        | some (v, r) =>
            match skipJWs r with
            | ',' :: r2 =>
                (match parseItems fuel r2 with
                 | some (vs, r3) => some (v :: vs, r3)
                 | none => none)
            | ']' :: r2 => some ([v], r2)
            | _ => none) = some (x :: xs, rest)
      rw [parseVal_dumps fuel x (dumpsMoreItems xs ++ (']' :: rest))
        (by omega) (numDelim_more_items xs rest)]
      cases xs with
      | nil => rfl
      | cons y ys =>
          show (match skipJWs ((',' :: ' ' :: (dumpsL y ++ dumpsMoreItems ys)) ++
              (']' :: rest)) with
            | ',' :: r2 =>
                (match parseItems fuel r2 with
                 | some (vs, r3) => some (x :: vs, r3)
                 | none => none)
            | ']' :: r2 => some ([x], r2)
            | _ => none) = some (x :: y :: ys, rest)
          show (match parseItems fuel
              (' ' :: ((dumpsL y ++ dumpsMoreItems ys) ++ (']' :: rest))) with
            | some (vs, r3) => some (x :: vs, r3)
            | none => none) = some (x :: y :: ys, rest)
          cases fuel with
          | zero =>
              exfalso
              have : (dumpsMoreItems (y :: ys)).length =
                  2 + ((dumpsL y).length + (dumpsMoreItems ys).length) := by
                show (',' :: ' ' :: (dumpsL y ++ dumpsMoreItems ys)).length = _
                simp [List.length_append]
                omega
              omega
          | succ g =>
              rw [parseItems_ws g _]
              rw [List.append_assoc]
              have hmore : (dumpsMoreItems (y :: ys)).length =
                  2 + ((dumpsL y).length + (dumpsMoreItems ys).length) := by
                show (',' :: ' ' :: (dumpsL y ++ dumpsMoreItems ys)).length = _
                simp [List.length_append]
                omega
              rw [parseItems_dumps (g + 1) y ys rest (by omega)]

theorem parseFields_dumps : ∀ (fuel : Nat) (kv : String × Json)
    (ms : List (String × Json)) (rest : List Char),
    (dumpsField kv).length + (dumpsMoreFields ms).length + 1 < fuel →
    parseFields fuel (dumpsField kv ++ (dumpsMoreFields ms ++ ('\x7d' :: rest))) =
      some (kv :: ms, rest)
  | 0, kv, ms, rest => fun hlen => absurd hlen (by omega)
  | fuel + 1, (k, v), ms, rest => fun hlen => by
      have hkey : dumpsField (k, v) ++ (dumpsMoreFields ms ++ ('\x7d' :: rest)) =
          '"' :: (k.data.flatMap escChar ++
            ('"' :: (':' :: ' ' :: (dumpsL v ++
              (dumpsMoreFields ms ++ ('\x7d' :: rest)))))) := by
        rw [show dumpsField (k, v) =
          '"' :: (escStrL k ++ ('"' :: ':' :: ' ' :: dumpsL v)) from rfl]
        rw [List.cons_append, List.append_assoc]
        rfl
      rw [hkey]
      show (match parseStrBody [] (k.data.flatMap escChar ++
          ('"' :: (':' :: ' ' :: (dumpsL v ++
            (dumpsMoreFields ms ++ ('\x7d' :: rest)))))) with
        | none => none
        | some (k2, r1) =>
            match skipJWs r1 with
            | ':' :: r2 =>
                (match parseVal fuel r2 with
                 | none => none
                 | some (v2, r3) =>
                   match skipJWs r3 with
                   | ',' :: r4 =>
                       (match parseFields fuel r4 with
                        | some (ms2, r5) => some ((k2, v2) :: ms2, r5)
                        | none => none)
                   | '\x7d' :: r4 => some ([(k2, v2)], r4)
                   | _ => none)
            | _ => none) = some ((k, v) :: ms, rest)
      rw [parseStrBody_escs k.data []
        (':' :: ' ' :: (dumpsL v ++ (dumpsMoreFields ms ++ ('\x7d' :: rest))))]
      have hstr : (⟨([] : List Char).reverse ++ k.data⟩ : String) = k := by
        show (⟨k.data⟩ : String) = k
        rfl
      rw [hstr]
      show (match parseVal fuel (' ' :: (dumpsL v ++
          (dumpsMoreFields ms ++ ('\x7d' :: rest)))) with
        | none => none
        | some (v2, r3) =>
          match skipJWs r3 with
          | ',' :: r4 =>
              (match parseFields fuel r4 with
               | some (ms2, r5) => some ((k, v2) :: ms2, r5)
               | none => none)
          | '\x7d' :: r4 => some ([(k, v2)], r4)
          | _ => none) = some ((k, v) :: ms, rest)
      have hflen : (dumpsField (k, v)).length =
          1 + ((escStrL k).length + (3 + (dumpsL v).length)) := by
        rw [show dumpsField (k, v) =
          '"' :: (escStrL k ++ ('"' :: ':' :: ' ' :: dumpsL v)) from rfl]
        simp [List.length_append]
        omega
      cases fuel with
      | zero => omega
      | succ g =>
          rw [parseVal_ws g _]
          rw [parseVal_dumps (g + 1) v (dumpsMoreFields ms ++ ('\x7d' :: rest))
            (by omega) (numDelim_more_fields ms rest)]
          cases ms with
          | nil => rfl
          | cons kv2 ms2 =>
              show (match skipJWs ((',' :: ' ' ::
                  (dumpsField kv2 ++ dumpsMoreFields ms2)) ++ ('\x7d' :: rest)) with
                | ',' :: r4 =>
                    (match parseFields (g + 1) r4 with
                     | some (ms3, r5) => some ((k, v) :: ms3, r5)
                     | none => none)
                | '\x7d' :: r4 => some ([(k, v)], r4)
                | _ => none) = some ((k, v) :: kv2 :: ms2, rest)
              show (match parseFields (g + 1)
                  (' ' :: ((dumpsField kv2 ++ dumpsMoreFields ms2) ++
                    ('\x7d' :: rest))) with
                | some (ms3, r5) => some ((k, v) :: ms3, r5)
                | none => none) = some ((k, v) :: kv2 :: ms2, rest)
              rw [parseFields_ws g _]
              rw [List.append_assoc]
              have hmore : (dumpsMoreFields (kv2 :: ms2)).length =
                  2 + ((dumpsField kv2).length + (dumpsMoreFields ms2).length) := by
                show (',' :: ' ' :: (dumpsField kv2 ++ dumpsMoreFields ms2)).length = _
                simp [List.length_append]
                omega
              rw [parseFields_dumps (g + 1) kv2 ms2 rest (by omega)]

end

/-! ### Fence stripping: `split` and `strip` on the serialized payload -/

theorem hasSubL_cons (n : List Char) (c : Char) (t : List Char) :
    hasSubL n (c :: t) = (n.isPrefixOf (c :: t) || hasSubL n t) := by
  rw [Bool.eq_iff_iff]
  unfold hasSubL
  rw [List.any_eq_true, Bool.or_eq_true, List.any_eq_true]
  constructor
  · rintro ⟨i, hi, hp⟩
    rw [List.mem_range] at hi
    cases i with
    | zero => exact Or.inl hp
    | succ j =>
        right
        refine ⟨j, ?_, ?_⟩
        · rw [List.mem_range]
          simp only [List.length_cons] at hi
          omega
        · simpa using hp
  · rintro (hp | ⟨j, hj, hp⟩)
    · exact ⟨0, by rw [List.mem_range]; omega, hp⟩
    · rw [List.mem_range] at hj
      refine ⟨j + 1, ?_, ?_⟩
      · rw [List.mem_range]
        simp only [List.length_cons]
        omega
      · simpa using hp

theorem nil_isPrefixOf (l : List Char) : List.isPrefixOf ([] : List Char) l = true := by
  cases l <;> rfl

theorem fence_prefix_ext (l ext : List Char) (h : 3 ≤ l.length) :
    FENCE.isPrefixOf (l ++ ext) = FENCE.isPrefixOf l := by
  match l, h with
  | a :: b :: c :: t, _ =>
      show FENCE.isPrefixOf (a :: b :: c :: (t ++ ext)) = FENCE.isPrefixOf (a :: b :: c :: t)
      show (('`' == a) && (('`' == b) && (('`' == c) && List.isPrefixOf [] (t ++ ext)))) =
        (('`' == a) && (('`' == b) && (('`' == c) && List.isPrefixOf [] t)))
      rw [nil_isPrefixOf, nil_isPrefixOf]

theorem hasSubL_fence_prepend (x y : List Char) (hx : ∀ c ∈ x, c ≠ '`') :
    hasSubL FENCE (x ++ y) = hasSubL FENCE y := by
  induction x with
  | nil => rfl
  | cons c x ih =>
      rw [List.cons_append, hasSubL_cons]
      have hne : ('`' == c) = false := beq_eq_false_iff_ne.mpr
        (fun hh => hx c (by simp) hh.symm)
      rw [show FENCE.isPrefixOf (c :: (x ++ y)) =
          (('`' == c) && List.isPrefixOf ['`', '`'] (x ++ y)) from rfl]
      rw [hne]
      rw [ih (fun c2 h2 => hx c2 (by simp [h2]))]
      simp

theorem hasSubL_fence_append_tail (D : List Char) (hD : hasSubL FENCE D = false) :
    hasSubL FENCE (D ++ ['\n', '`', '`']) = false := by
  induction D with
  | nil => decide
  | cons c D ih =>
      rw [hasSubL_cons, Bool.or_eq_false_iff] at hD
      rw [List.cons_append, hasSubL_cons]
      rw [ih hD.2]
      have hpre : FENCE.isPrefixOf (c :: (D ++ ['\n', '`', '`'])) = false := by
        match D, hD with
        | [], hD =>
            show (('`' == c) && (('`' == '\n') && _)) = false
            simp
        | [d], hD =>
            show (('`' == c) && (('`' == d) && (('`' == '\n') && _))) = false
            simp
        | d :: e :: D2, hD =>
            rw [show c :: ((d :: e :: D2) ++ ['\n', '`', '`']) =
              (c :: d :: e :: D2) ++ ['\n', '`', '`'] from rfl]
            rw [fence_prefix_ext (c :: d :: e :: D2) _ (by simp)]
            exact hD.1
      rw [hpre]
      simp

theorem splitGo_fence_scan : ∀ (mid : List Char) (fuel : Nat) (cur : List Char),
    hasSubL FENCE (mid ++ ['`', '`']) = false → mid.length + 1 ≤ fuel →
    splitGo FENCE fuel (mid ++ FENCE) cur = (cur.reverse ++ mid) :: [[]]
  | [], fuel, cur, _, hf => by
      cases fuel with
      | zero => omega
      | succ f =>
          rw [List.nil_append]
          show (if FENCE ≠ [] ∧ FENCE.isPrefixOf ('`' :: ['`', '`']) then
              cur.reverse :: splitGo FENCE f ((['`', '`'] : List Char).drop (FENCE.length - 1)) []
            else splitGo FENCE f ['`', '`'] ('`' :: cur)) = (cur.reverse ++ []) :: [[]]
          rw [if_pos (⟨by decide, by decide⟩ :
            FENCE ≠ [] ∧ FENCE.isPrefixOf ('`' :: ['`', '`']))]
          rw [List.append_nil]
          cases f <;> rfl
  | c :: mid, fuel, cur, hno, hf => by
      cases fuel with
      | zero => simp at hf
      | succ f =>
          rw [show (c :: mid) ++ ['`', '`'] = c :: (mid ++ ['`', '`']) from rfl,
            hasSubL_cons, Bool.or_eq_false_iff] at hno
          have hpre : FENCE.isPrefixOf (c :: (mid ++ FENCE)) = false := by
            match mid, hno with
            | [], hno => exact hno.1
            | [d], hno => exact hno.1
            | d :: e :: mid2, hno =>
                rw [show c :: ((d :: e :: mid2) ++ FENCE) =
                  (c :: d :: e :: mid2) ++ FENCE from rfl]
                rw [fence_prefix_ext (c :: d :: e :: mid2) _ (by simp)]
                rw [show c :: ((d :: e :: mid2) ++ ['`', '`']) =
                  (c :: d :: e :: mid2) ++ ['`', '`'] from rfl] at hno
                rw [fence_prefix_ext (c :: d :: e :: mid2) _ (by simp)] at hno
                exact hno.1
          show (if FENCE ≠ [] ∧ FENCE.isPrefixOf (c :: (mid ++ FENCE)) then
              cur.reverse :: splitGo FENCE f ((mid ++ FENCE).drop (FENCE.length - 1)) []
            else splitGo FENCE f (mid ++ FENCE) (c :: cur)) = ((cur.reverse ++ (c :: mid)) :: [[]])
          rw [if_neg (fun hand => by rw [hpre] at hand; exact Bool.false_ne_true hand.2)]
          rw [splitGo_fence_scan mid f (c :: cur) hno.2 (by
            simp only [List.length_cons] at hf
            omega)]
          simp

theorem pySplit_fenced (mid : List Char)
    (hno : hasSubL FENCE (mid ++ ['`', '`']) = false) :
    pySplitL FENCE (FENCE ++ (mid ++ FENCE)) = [[], mid, []] := by
  unfold pySplitL
  rw [show (FENCE ++ (mid ++ FENCE)).length = mid.length + 5 + 1 from by
    simp [FENCE]]
  show (if FENCE ≠ [] ∧ FENCE.isPrefixOf ('`' :: ('`' :: '`' :: (mid ++ FENCE))) then
      ([] : List Char).reverse ::
        splitGo FENCE (mid.length + 5)
          (('`' :: '`' :: (mid ++ FENCE)).drop (FENCE.length - 1)) []
    else splitGo FENCE (mid.length + 5) ('`' :: '`' :: (mid ++ FENCE)) ['`']) =
    [[], mid, []]
  have hpref : FENCE.isPrefixOf ('`' :: ('`' :: '`' :: (mid ++ FENCE))) = true := by
    show (('`' == '`') && (('`' == '`') && (('`' == '`') &&
      List.isPrefixOf [] (mid ++ FENCE)))) = true
    rw [nil_isPrefixOf]
    rfl
  rw [if_pos (And.intro (by decide) hpref)]
  show ([] : List Char).reverse ::
    splitGo FENCE (mid.length + 5) (mid ++ FENCE) [] = [[], mid, []]
  rw [splitGo_fence_scan mid (mid.length + 5) [] hno (by omega)]
  rfl

/-! ### `strip` around the serialized payload -/

theorem pyStripL_id (l : List Char)
    (hh : ∀ c, l.head? = some c → isPyWs c = false)
    (hl : ∀ c, l.getLast? = some c → isPyWs c = false) :
    pyStripL l = l := by
  cases l with
  | nil => rfl
  | cons c t =>
      unfold pyStripL
      rw [List.dropWhile_cons_of_neg (by rw [hh c rfl]; simp)]
      obtain ⟨d, r, hdr⟩ := List.exists_cons_of_ne_nil
        (show (c :: t).reverse ≠ [] from by simp)
      rw [hdr]
      rw [List.dropWhile_cons_of_neg (by
        have hgl : (c :: t).getLast? = some d := by
          rw [← List.head?_reverse, hdr]
          rfl
        rw [hl d hgl]
        simp)]
      rw [← hdr, List.reverse_reverse]

theorem pyStripL_nl (l : List Char)
    (hh : ∀ c, l.head? = some c → isPyWs c = false)
    (hl : ∀ c, l.getLast? = some c → isPyWs c = false) :
    pyStripL ('\n' :: (l ++ ['\n'])) = l := by
  unfold pyStripL
  rw [List.dropWhile_cons_of_pos (by decide)]
  cases l with
  | nil => rfl
  | cons c t =>
      rw [show (c :: t) ++ ['\n'] = c :: (t ++ ['\n']) from rfl]
      rw [List.dropWhile_cons_of_neg (by rw [hh c rfl]; simp)]
      rw [show c :: (t ++ ['\n']) = (c :: t) ++ ['\n'] from rfl, List.reverse_append]
      rw [show (['\n'] : List Char).reverse ++ (c :: t).reverse =
        '\n' :: (c :: t).reverse from rfl]
      rw [List.dropWhile_cons_of_pos (by decide)]
      obtain ⟨d, r, hdr⟩ := List.exists_cons_of_ne_nil
        (show (c :: t).reverse ≠ [] from by simp)
      rw [hdr]
      rw [List.dropWhile_cons_of_neg (by
        have hgl : (c :: t).getLast? = some d := by
          rw [← List.head?_reverse, hdr]
          rfl
        rw [hl d hgl]
        simp)]
      rw [← hdr, List.reverse_reverse]

theorem dumpsL_last_pyws : ∀ (v : Json) (c : Char),
    (dumpsL v).getLast? = some c → isPyWs c = false
  | .null, c, hc => by
      rw [show (dumpsL Json.null).getLast? = some 'l' from rfl] at hc
      obtain rfl := Option.some.inj hc
      decide
  | .bool true, c, hc => by
      rw [show (dumpsL (Json.bool true)).getLast? = some 'e' from rfl] at hc
      obtain rfl := Option.some.inj hc
      decide
  | .bool false, c, hc => by
      rw [show (dumpsL (Json.bool false)).getLast? = some 'e' from rfl] at hc
      obtain rfl := Option.some.inj hc
      decide
  | .str s, c, hc => by
      rw [show dumpsL (Json.str s) = ('"' :: escStrL s) ++ ['"'] from rfl,
        List.getLast?_concat] at hc
      obtain rfl := Option.some.inj hc
      decide
  | .arr [], c, hc => by
      rw [show (dumpsL (Json.arr [])).getLast? = some ']' from rfl] at hc
      obtain rfl := Option.some.inj hc
      decide
  | .arr (x :: xs), c, hc => by
      rw [show dumpsL (Json.arr (x :: xs)) =
        ('[' :: (dumpsL x ++ dumpsMoreItems xs)) ++ [']'] from by
          show '[' :: (dumpsL x ++ (dumpsMoreItems xs ++ [']'])) = _
          simp [List.append_assoc], List.getLast?_concat] at hc
      obtain rfl := Option.some.inj hc
      decide
  | .obj [], c, hc => by
      rw [show (dumpsL (Json.obj [])).getLast? = some '\x7d' from rfl] at hc
      obtain rfl := Option.some.inj hc
      decide
  | .obj (kv :: ms), c, hc => by
      rw [show dumpsL (Json.obj (kv :: ms)) =
        ('\x7b' :: (dumpsField kv ++ dumpsMoreFields ms)) ++ ['\x7d'] from by
          show '\x7b' :: (dumpsField kv ++ (dumpsMoreFields ms ++ ['\x7d'])) = _
          simp [List.append_assoc], List.getLast?_concat] at hc
      obtain rfl := Option.some.inj hc
      decide
  | .num n, c, hc => by
      rw [show dumpsL (Json.num n) = intCharsL n from rfl] at hc
      unfold intCharsL at hc
      rw [List.getLast?_append_of_ne_nil _
        (show natChars n.natAbs ≠ [] from natDigitsGo_ne_nil _ _ [])] at hc
      have hmem : c ∈ natChars n.natAbs := List.mem_of_mem_getLast? hc
      obtain ⟨m, hm10, rfl⟩ := natChars_shape n.natAbs c hmem
      exact (digit_misc m hm10).2.2.2.2.2.2.2.2

/-- C5 (amended): for every JSON value whose serialization does not contain
the triple-backtick fence marker, decoding the serialization wrapped in a
fenced block with a `json` tag recovers the value exactly.  (The proved
counterexample shows that a string value containing the marker breaks the
round trip, so the hypothesis cannot be dropped.) -/
theorem decode_wrap_dumps (v : Json) (h : hasSubL FENCE (dumpsL v) = false) :
    decode_json (wrapFenced (Json.dumps v)) = some v := by
  have hraw : (wrapFenced (Json.dumps v)).data =
      FENCE ++ (('j' :: 's' :: 'o' :: 'n' :: '\n' :: (dumpsL v ++ ['\n'])) ++ FENCE) := by
    show ("```json\n" ++ (⟨dumpsL v⟩ : String) ++ "\n```").data = _
    rw [String.data_append, String.data_append]
    show ('`' :: '`' :: '`' :: 'j' :: 's' :: 'o' :: 'n' :: '\n' :: []) ++
      (dumpsL v ++ ('\n' :: '`' :: '`' :: '`' :: [])) = _
    simp [FENCE, List.append_assoc]
  have hh : ∀ c, (FENCE ++
      (('j' :: 's' :: 'o' :: 'n' :: '\n' :: (dumpsL v ++ ['\n'])) ++ FENCE)).head? =
      some c → isPyWs c = false := by
    intro c hc
    have hc2 : some '`' = some c := hc
    obtain rfl := Option.some.inj hc2
    decide
  have hl : ∀ c, (FENCE ++
      (('j' :: 's' :: 'o' :: 'n' :: '\n' :: (dumpsL v ++ ['\n'])) ++ FENCE)).getLast? =
      some c → isPyWs c = false := by
    intro c hc
    rw [show FENCE ++ (('j' :: 's' :: 'o' :: 'n' :: '\n' :: (dumpsL v ++ ['\n'])) ++ FENCE) =
      (FENCE ++ (('j' :: 's' :: 'o' :: 'n' :: '\n' :: (dumpsL v ++ ['\n'])) ++ ['`', '`'])) ++
        ['`'] from by simp [FENCE, List.append_assoc], List.getLast?_concat] at hc
    have hc2 : some '`' = some c := hc
    obtain rfl := Option.some.inj hc2
    decide
  have hs1 : pyStripL (FENCE ++
      (('j' :: 's' :: 'o' :: 'n' :: '\n' :: (dumpsL v ++ ['\n'])) ++ FENCE)) =
      FENCE ++ (('j' :: 's' :: 'o' :: 'n' :: '\n' :: (dumpsL v ++ ['\n'])) ++ FENCE) :=
    pyStripL_id _ hh hl
  have hnomid : hasSubL FENCE
      (('j' :: 's' :: 'o' :: 'n' :: '\n' :: (dumpsL v ++ ['\n'])) ++ ['`', '`']) = false := by
    rw [show ('j' :: 's' :: 'o' :: 'n' :: '\n' :: (dumpsL v ++ ['\n'])) ++ ['`', '`'] =
      ('j' :: 's' :: 'o' :: 'n' :: '\n' :: []) ++ ((dumpsL v ++ ['\n']) ++ ['`', '`']) from by
        simp [List.append_assoc]]
    rw [hasSubL_fence_prepend _ _ (by decide)]
    rw [show (dumpsL v ++ ['\n']) ++ ['`', '`'] = dumpsL v ++ ['\n', '`', '`'] from by
      simp [List.append_assoc]]
    exact hasSubL_fence_append_tail (dumpsL v) h
  have hsplit := pySplit_fenced ('j' :: 's' :: 'o' :: 'n' :: '\n' :: (dumpsL v ++ ['\n'])) hnomid
  have hclean : cleanResponseL (FENCE ++
      (('j' :: 's' :: 'o' :: 'n' :: '\n' :: (dumpsL v ++ ['\n'])) ++ FENCE)) = dumpsL v := by
    show pyStripL (if FENCE.isPrefixOf (pyStripL (FENCE ++
        (('j' :: 's' :: 'o' :: 'n' :: '\n' :: (dumpsL v ++ ['\n'])) ++ FENCE))) then
        (if JSONTAG.isPrefixOf ((pySplitL FENCE (pyStripL (FENCE ++
            (('j' :: 's' :: 'o' :: 'n' :: '\n' :: (dumpsL v ++ ['\n'])) ++ FENCE)))).getD 1 [])
         then ((pySplitL FENCE (pyStripL (FENCE ++
            (('j' :: 's' :: 'o' :: 'n' :: '\n' :: (dumpsL v ++ ['\n'])) ++ FENCE)))).getD 1
              []).drop 4
         else (pySplitL FENCE (pyStripL (FENCE ++
            (('j' :: 's' :: 'o' :: 'n' :: '\n' :: (dumpsL v ++ ['\n'])) ++ FENCE)))).getD 1 [])
      else pyStripL (FENCE ++
        (('j' :: 's' :: 'o' :: 'n' :: '\n' :: (dumpsL v ++ ['\n'])) ++ FENCE))) = dumpsL v
    rw [hs1]
    rw [if_pos (show FENCE.isPrefixOf (FENCE ++
        (('j' :: 's' :: 'o' :: 'n' :: '\n' :: (dumpsL v ++ ['\n'])) ++ FENCE)) = true from by
      show (('`' == '`') && (('`' == '`') && (('`' == '`') && List.isPrefixOf []
        (('j' :: 's' :: 'o' :: 'n' :: '\n' :: (dumpsL v ++ ['\n'])) ++ FENCE)))) = true
      rw [nil_isPrefixOf]
      rfl)]
    rw [hsplit]
    rw [show ([[], 'j' :: 's' :: 'o' :: 'n' :: '\n' :: (dumpsL v ++ ['\n']), []] :
      List (List Char)).getD 1 [] = 'j' :: 's' :: 'o' :: 'n' :: '\n' :: (dumpsL v ++ ['\n'])
      from rfl]
    rw [if_pos (show JSONTAG.isPrefixOf
        ('j' :: 's' :: 'o' :: 'n' :: '\n' :: (dumpsL v ++ ['\n'])) = true from by
      show (('j' == 'j') && (('s' == 's') && (('o' == 'o') && (('n' == 'n') &&
        List.isPrefixOf [] ('\n' :: (dumpsL v ++ ['\n'])))))) = true
      rw [nil_isPrefixOf]
      rfl)]
    show pyStripL ('\n' :: (dumpsL v ++ ['\n'])) = dumpsL v
    refine pyStripL_nl (dumpsL v) ?_ (dumpsL_last_pyws v)
    intro c hc
    obtain ⟨c2, t, hct, -, -, hpw⟩ := dumpsL_head_key v
    rw [hct] at hc
    have hc2 : some c2 = some c := hc
    obtain rfl := Option.some.inj hc2
    exact hpw
  show Json.parseL (cleanResponseL (wrapFenced (Json.dumps v)).data) = some v
  rw [hraw, hclean]
  unfold Json.parseL
  rw [show dumpsL v = dumpsL v ++ [] from (List.append_nil _).symm]
  have hp : parseVal ((dumpsL v ++ []).length + 1) (dumpsL v ++ []) = some (v, []) :=
    parseVal_dumps ((dumpsL v ++ []).length + 1) v []
      (by rw [List.append_nil]; omega) rfl
  rw [hp]
  rfl

/-- Witness for the fenced round trip at a concrete value mixing every
constructor: negative and zero numbers, an escaped string, null, booleans,
nesting, and an empty key. -/
theorem decode_wrap_dumps_witness :
    hasSubL FENCE (dumpsL (Json.obj
      [("a", Json.arr [Json.num (-12), Json.num 0, Json.str "x\n\"y"]),
       ("b", Json.null), ("", Json.bool true)])) = false ∧
    decode_json (wrapFenced (Json.dumps (Json.obj
      [("a", Json.arr [Json.num (-12), Json.num 0, Json.str "x\n\"y"]),
       ("b", Json.null), ("", Json.bool true)]))) =
      some (Json.obj
        [("a", Json.arr [Json.num (-12), Json.num 0, Json.str "x\n\"y"]),
         ("b", Json.null), ("", Json.bool true)]) :=
  ⟨rfl, decode_wrap_dumps (Json.obj
    [("a", Json.arr [Json.num (-12), Json.num 0, Json.str "x\n\"y"]),
     ("b", Json.null), ("", Json.bool true)]) rfl⟩

end AndrewExchange
